import Mathlib

/-!
A verification development for the encrypted multi-backend storage layer of
the medicinai repository (a pharmacy inventory application).

The development shallowly embeds the three source files of the layer:

* `src/services/encryption.ts` (`EncryptionService`): symmetric encryption
  and decryption of serializable values;
* `src/services/storage/googleDrive.ts` (`GoogleDriveStorage` and
  `LocalStorage`) and `src/services/storage/supabaseStorage.ts`
  (`SupabaseStorage`): the three storage backends;
* `src/services/storage/storageManager.ts` (`StorageManager`): fan-out
  write, priority-order read with failover, and naive cross-backend sync.

Modelling conventions, fixed once here:

* JavaScript values that reach `JSON.stringify` are modelled by the
  inductive `Value` (the JSON data model); `JSON.parse ∘ JSON.stringify`
  is the identity on that model, so serialization is the identity
  embedding of `Value`.
* The CryptoJS AES primitive is modelled as an ideal symmetric cipher: a
  ciphertext is an opaque pair of the (serialized) plaintext and the key
  it was produced under, and decryption with the matching key is the only
  way back.  Decryption under a wrong key fails, which models the
  UTF-8/JSON decode failure the source detects.
* `crypto.randomUUID()` and `Date.now()` are modelled by one logical
  clock `World.clock`: each generated identifier (and each creation
  timestamp) is the current clock value, and the clock advances, so all
  generated identifiers are distinct.
* Network and remote-service failures are fault-injection flags carried
  in the backend states (for example `SupaState.netFail`); a flagged call
  throws exactly where the corresponding `fetch`/query of the source
  throws.
* Thrown JavaScript errors are `Except.error` with a message string that
  abbreviates the source's message; aggregated manager errors keep the
  per-backend message list that the source joins into one string, so that
  the number of sub-errors is observable.
-/

namespace Medicinai

/-- The encryption key: a printable string (`EncryptionService.generateEncryptionKey`
returns a hex string). -/
abbrev Key := String

/-- A primitive JSON value. -/
inductive Prim where
  | pnull : Prim
  | pbool : Bool → Prim
  | pnum : Int → Prim
  | pstr : String → Prim
deriving DecidableEq, Repr

/-- The JSON data model: the serializable values the application stores
(`JSON.stringify`-able records such as medicines, batches, sales).  The
model covers primitives, flat arrays and flat objects — the shapes the
application's records use; every claim below is parametric in this
domain. -/
inductive Value where
  | prim : Prim → Value
  | varr : List Prim → Value
  | vobj : List (String × Prim) → Value
deriving DecidableEq, Repr

/-- An opaque ciphertext: the output of the (ideal) AES encryption of a
serialized value under a key.  Nothing in the development inspects the
payload except `EncryptionService.decryptData` with the matching key. -/
structure Ciphertext where
  payload : Value
  key : Key
deriving DecidableEq, Repr

namespace EncryptionService

/-- `EncryptionService.encryptData` (src/services/encryption.ts):
`JSON.stringify` the value (identity on the JSON model) and AES-encrypt it
under `encryptionKey` (ideal cipher: the opaque pair). -/
def encryptData (data : Value) (encryptionKey : Key) : Ciphertext :=
  ⟨data, encryptionKey⟩

/-- `EncryptionService.decryptData` (src/services/encryption.ts):
AES-decrypt and `JSON.parse`.  Under a wrong key the decrypted bytes fail
to decode (the source's empty-string check / JSON parse failure) and the
function throws `'Failed to decrypt data'`. -/
def decryptData (encryptedData : Ciphertext) (encryptionKey : Key) :
    Except String Value :=
  if encryptedData.key = encryptionKey then .ok encryptedData.payload
  else .error "Failed to decrypt data"

end EncryptionService

/-! ## Storage backend states

The Local Backend lives in the browser's `localStorage`: a flat key→value
map with a capacity quota.  Keys are namespaced strings
(`'pharmacare_encrypted_' + userId + '_' + dataType + '_' + id` for a
record, `'pharmacare_encrypted_index_' + userId` for the per-user index).
The key space is modelled structurally — the string concatenation is
injective for the numeric identifiers the model generates, so the
structured key is a faithful abstraction. -/

/-- A `localStorage` key of the Local Backend. -/
inductive LSKey where
  | record : (userId : String) → (dataType : String) → (id : Nat) → LSKey
  | index : (userId : String) → LSKey
deriving DecidableEq, Repr

/-- The JSON object `LocalStorage.storeEncryptedData` persists for one
record (src/services/storage/googleDrive.ts, `storageItem`). -/
structure LocalItem where
  id : Nat
  userId : String
  dataType : String
  encryptedContent : Ciphertext
  storageLocation : String
  createdAt : Nat
  updatedAt : Nat
deriving DecidableEq, Repr

/-- One entry of the Local Backend's per-user enumeration index
(`updateIndex` pushes `{id, dataType, createdAt}`). -/
structure IndexEntry where
  id : Nat
  dataType : String
  createdAt : Nat
deriving DecidableEq, Repr

/-- A parsed `localStorage` value: either a stored record or the
serialized index list.  (`JSON.parse` of the stored string.) -/
inductive StoredVal where
  | item : LocalItem → StoredVal
  | idx : List IndexEntry → StoredVal
deriving DecidableEq, Repr

/-- The browser's `localStorage`: an association list of unique keys with
a hard capacity quota.  The quota is modelled as a bound on the number of
stored entries: `setItem` of a fresh key beyond the quota throws
`QuotaExceededError`, overwriting an existing key succeeds. -/
structure Browser where
  map : List (LSKey × StoredVal)
  quota : Nat
deriving DecidableEq, Repr

/-- A file in the Google Drive folder (`PharmaCare_Encrypted_Data`). -/
structure DriveFile where
  id : Nat
  name : String
  content : Ciphertext
deriving DecidableEq, Repr

/-- The Cloud File Backend's state.  `accessToken` is whether a bearer
token is cached; `netFail` injects network failure into every `fetch`.
The lazily-created folder is abstracted away: it only selects where the
files physically live. -/
structure DriveState where
  accessToken : Bool
  netFail : Bool
  files : List DriveFile
deriving DecidableEq, Repr

/-- A row of the hosted `encrypted_data` table. -/
structure SupaRow where
  id : Nat
  user_id : String
  data_type : String
  encrypted_content : Ciphertext
  storage_location : String
  created_at : Nat
  updated_at : Nat
deriving DecidableEq, Repr

/-- An entry of the per-user profiles-table fallback document
(`storeInProfilesTable` writes `{data_type, encrypted_content, created_at}`
keyed by a generated id). -/
structure ProfileEntry where
  dataId : Nat
  data_type : String
  encrypted_content : Ciphertext
  created_at : Nat
deriving DecidableEq, Repr

/-- The Relational Backend's state.  `authed`: `supabase.auth.getUser()`
returns a user.  `tableExists`: the `information_schema` probe reports the
`encrypted_data` table (a failing probe takes the same branch as a missing
table).  `createRpcOk`: the `create_encrypted_data_table` RPC succeeds.
`insertFail`: the insert into `encrypted_data` errors.  `netFail`: select,
update, delete and list queries error.  `profilesFail`: the profiles-table
fallback read or write errors. -/
structure SupaState where
  authed : Bool
  tableExists : Bool
  createRpcOk : Bool
  insertFail : Bool
  netFail : Bool
  profilesFail : Bool
  rows : List SupaRow
  profiles : List (String × List ProfileEntry)
deriving DecidableEq, Repr

/-- The whole mutable world the storage layer acts on: the three backend
states plus the logical clock standing for `crypto.randomUUID()` /
`Date.now()` (each generated identifier or timestamp is the clock value,
and the clock then advances). -/
structure World where
  browser : Browser
  drive : DriveState
  supa : SupaState
  clock : Nat
deriving DecidableEq, Repr

namespace LocalStorage

/-- `localStorage.getItem`: first binding of the key. -/
def lsGet : List (LSKey × StoredVal) → LSKey → Option StoredVal
  | [], _ => none
  | (k₁, v) :: rest, k => if k₁ = k then some v else lsGet rest k

/-- Replace the binding of an existing key in place. -/
def lsSetEntry : List (LSKey × StoredVal) → LSKey → StoredVal → List (LSKey × StoredVal)
  | [], k, v => [(k, v)]
  | (k₁, v₁) :: rest, k, v =>
    if k₁ = k then (k, v) :: rest else (k₁, v₁) :: lsSetEntry rest k v

/-- `localStorage.removeItem`: drop the binding of the key (no error when
absent). -/
def lsRemoveKey : List (LSKey × StoredVal) → LSKey → List (LSKey × StoredVal)
  | [], _ => []
  | (k₁, v₁) :: rest, k =>
    if k₁ = k then rest else (k₁, v₁) :: lsRemoveKey rest k

/-- `localStorage.setItem`: overwrite an existing key, or add a fresh key
when the quota allows; otherwise throw `QuotaExceededError` (the only
`setItem` failure of the model). -/
def setItem (b : Browser) (k : LSKey) (v : StoredVal) : Except String Browser :=
  match lsGet b.map k with
  | some _ => .ok { b with map := lsSetEntry b.map k v }
  | none =>
    if b.map.length < b.quota then .ok { b with map := b.map ++ [(k, v)] }
    else .error "QuotaExceededError"

/-- `localStorage.removeItem` lifted to the browser state. -/
def removeItem (b : Browser) (k : LSKey) : Browser :=
  { b with map := lsRemoveKey b.map k }

/-- `LocalStorage.getIndex`: parse the stored index, `[]` when absent.
(A record stored under an index key cannot arise: the key spaces are
disjoint.) -/
def getIndex (b : Browser) (userId : String) : List IndexEntry :=
  match lsGet b.map (.index userId) with
  | some (.idx l) => l
  | _ => []

/-- `LocalStorage.updateIndex`: read the index, push `{id, dataType,
createdAt}`, write it back.  The `setItem` may throw (quota). -/
def updateIndex (b : Browser) (userId : String) (id : Nat) (dataType : String)
    (now : Nat) : Except String Browser :=
  setItem b (.index userId) (.idx (getIndex b userId ++ [⟨id, dataType, now⟩]))

/-- `LocalStorage.removeFromIndex`: filter the entry with the given id out
of the index and write it back. -/
def removeFromIndex (b : Browser) (userId : String) (id : Nat) :
    Except String Browser :=
  setItem b (.index userId)
    (.idx ((getIndex b userId).filter (fun e => e.id != id)))

/-- `LocalStorage.clearOldData`: evict the oldest `ceil(10%)` of this
user's records.  `index.sort` sorts in place, so the index written back is
the tail of the *sorted* index.  Its own errors are swallowed
(`console.warn`), so mutations made before a failing index write
persist. -/
def clearOldData (b : Browser) (userId : String) : Browser :=
  let ix := getIndex b userId
  let itemsToRemove := (ix.length + 9) / 10
  let sorted := ix.mergeSort (fun a b => a.createdAt ≤ b.createdAt)
  let b₁ := (sorted.take itemsToRemove).foldl
    (fun acc e => removeItem acc (.record userId e.dataType e.id)) b
  match setItem b₁ (.index userId) (.idx (sorted.drop itemsToRemove)) with
  | .ok b₂ => b₂
  | .error _ => b₁

/-- `LocalStorage.storeEncryptedData`: encrypt, generate an id, write the
record (on `QuotaExceededError`: `clearOldData` then retry once), then
update the index.  A JavaScript `localStorage` mutation persists even when
a later statement throws, so every error outcome carries the world as
mutated so far. -/
def storeEncryptedData (userId : String) (data : Value) (dataType : String)
    (encryptionKey : Key) (w : World) : Except String Nat × World :=
  let encryptedContent := EncryptionService.encryptData data encryptionKey
  let id := w.clock
  let item : LocalItem := ⟨id, userId, dataType, encryptedContent, "local", id, id⟩
  let w₁ : World := { w with clock := w.clock + 1 }
  let afterWrite : Browser → Except String Nat × World := fun b =>
    match updateIndex b userId id dataType item.createdAt with
    | .ok b₁ => (.ok id, { w₁ with browser := b₁ })
    | .error e => (.error ("Failed to store data locally: " ++ e), { w₁ with browser := b })
  match setItem w.browser (.record userId dataType id) (.item item) with
  | .ok b => afterWrite b
  | .error _ =>
    let b₁ := clearOldData w.browser userId
    match setItem b₁ (.record userId dataType id) (.item item) with
    | .ok b₂ => afterWrite b₂
    | .error e =>
      (.error ("Failed to store data locally: " ++ e), { w₁ with browser := b₁ })

/-- The body of the `map` in `LocalStorage.retrieveEncryptedData`: look
each index entry of the data type up, skip missing records (`if (!stored)
return null`, filtered out afterwards), decrypt the rest; a decryption
failure throws out of the whole call. -/
def retrieveGo (b : Browser) (userId dataType : String) (encryptionKey : Key) :
    List IndexEntry → Except String (List Value)
  | [] => .ok []
  | e :: rest =>
    match lsGet b.map (.record userId dataType e.id) with
    | none => retrieveGo b userId dataType encryptionKey rest
    | some (.idx _) => .error "Failed to retrieve data from localStorage: bad item"
    | some (.item it) =>
      match EncryptionService.decryptData it.encryptedContent encryptionKey with
      | .error e₁ => .error ("Failed to retrieve data from localStorage: " ++ e₁)
      | .ok v =>
        match retrieveGo b userId dataType encryptionKey rest with
        | .error e₂ => .error e₂
        | .ok vs => .ok (v :: vs)

/-- `LocalStorage.retrieveEncryptedData`: filter the index by data type,
fetch and decrypt each referenced record. -/
def retrieveEncryptedData (userId dataType : String) (encryptionKey : Key)
    (b : Browser) : Except String (List Value) :=
  retrieveGo b userId dataType encryptionKey
    ((getIndex b userId).filter (fun e => e.dataType == dataType))

/-- `LocalStorage.updateEncryptedData`: re-encrypt and overwrite an
existing record's payload and `updatedAt`; throw `Item not found` when the
key is absent. -/
def updateEncryptedData (userId : String) (id : Nat) (dataType : String)
    (data : Value) (encryptionKey : Key) (w : World) : Except String Unit × World :=
  let encryptedContent := EncryptionService.encryptData data encryptionKey
  match lsGet w.browser.map (.record userId dataType id) with
  | none => (.error "Failed to update data in localStorage: Error: Item not found", w)
  | some (.idx _) => (.error "Failed to update data in localStorage: bad item", w)
  | some (.item it) =>
    let it₁ := { it with encryptedContent := encryptedContent, updatedAt := w.clock }
    match setItem w.browser (.record userId dataType id) (.item it₁) with
    | .ok b₁ => (.ok (), { w with browser := b₁ })
    | .error e => (.error ("Failed to update data in localStorage: " ++ e), w)

/-- `LocalStorage.deleteEncryptedData`: `removeItem` the record key, then
`removeFromIndex`.  The record removal persists even when the index write
throws. -/
def deleteEncryptedData (userId : String) (id : Nat) (dataType : String)
    (w : World) : Except String Unit × World :=
  let b₁ := removeItem w.browser (.record userId dataType id)
  match removeFromIndex b₁ userId id with
  | .ok b₂ => (.ok (), { w with browser := b₂ })
  | .error e => (.error ("Failed to delete data from localStorage: " ++ e), { w with browser := b₁ })

/-- `LocalStorage.getStorageStats`: the reported `itemCount` is the length
of the user's index. -/
def statsItemCount (userId : String) (b : Browser) : Nat :=
  (getIndex b userId).length

end LocalStorage

/-- `String.prototype.startsWith`, computed on the character lists so
that it evaluates by the kernel. -/
def nameStartsWith (s pre : String) : Bool :=
  decide (s.data.take pre.data.length = pre.data)

namespace GoogleDriveStorage

/-- `GoogleDriveStorage.storeEncryptedData`: throw when not
authenticated, encrypt, build the file name
`dataType + '_' + Date.now() + '.encrypted'`, upload into the (get-or-
created) folder.  A network fault fails the upload before any
mutation. -/
def storeEncryptedData (data : Value) (dataType : String) (encryptionKey : Key)
    (w : World) : Except String Nat × World :=
  if !w.drive.accessToken then (.error "Not authenticated with Google Drive", w)
  else if w.drive.netFail then (.error "Network error", w)
  else
    let encryptedContent := EncryptionService.encryptData data encryptionKey
    let fileName := dataType ++ "_" ++ toString w.clock ++ ".encrypted"
    let file : DriveFile := ⟨w.clock, fileName, encryptedContent⟩
    (.ok w.clock,
      { w with clock := w.clock + 1,
               drive := { w.drive with files := w.drive.files ++ [file] } })

/-- `GoogleDriveStorage.listEncryptedFiles`: throw when not
authenticated, list the folder's files.  The folder get-or-create round
trip is abstracted: it only selects the physical folder. -/
def listEncryptedFiles (d : DriveState) : Except String (List DriveFile) :=
  if !d.accessToken then .error "Not authenticated with Google Drive"
  else if d.netFail then .error "Network error"
  else .ok d.files

/-- `GoogleDriveStorage.retrieveEncryptedData`: throw when not
authenticated, download the file body and decrypt it.  Downloading an
unknown id yields a body that fails to decrypt. -/
def retrieveEncryptedData (fileId : Nat) (encryptionKey : Key) (d : DriveState) :
    Except String Value :=
  if !d.accessToken then .error "Not authenticated with Google Drive"
  else if d.netFail then .error "Network error"
  else
    match d.files.find? (fun f => f.id == fileId) with
    | none => .error "Failed to decrypt data"
    | some f => EncryptionService.decryptData f.content encryptionKey

end GoogleDriveStorage

namespace SupabaseStorage

/-- Update an association list at a key, appending when absent. -/
def assocSet {α β : Type} [DecidableEq α] :
    List (α × β) → α → β → List (α × β)
  | [], k, v => [(k, v)]
  | (k₁, v₁) :: rest, k, v =>
    if k₁ = k then (k, v) :: rest else (k₁, v₁) :: assocSet rest k v

/-- Look an association list up. -/
def assocGet {α β : Type} [DecidableEq α] : List (α × β) → α → Option β
  | [], _ => none
  | (k₁, v₁) :: rest, k => if k₁ = k then some v₁ else assocGet rest k

/-- `SupabaseStorage.storeInProfilesTable`: fetch the per-user profile
document, add `{data_type, encrypted_content, created_at}` under a fresh
id, write it back.  A failing read or write throws. -/
def storeInProfilesTable (userId : String) (dataType : String)
    (encryptedContent : Ciphertext) (w : World) : Except String Nat × World :=
  if w.supa.profilesFail then (.error "profiles table error", w)
  else
    let dataId := w.clock
    let entry : ProfileEntry := ⟨dataId, dataType, encryptedContent, w.clock⟩
    let existing := (assocGet w.supa.profiles userId).getD []
    (.ok dataId,
      { w with clock := w.clock + 1,
               supa := { w.supa with
                 profiles := assocSet w.supa.profiles userId (existing ++ [entry]) } })

/-- `SupabaseStorage.storeEncryptedData`: require an authenticated user;
encrypt; probe for the `encrypted_data` table (a failing probe takes the
missing-table branch) and try the `create_encrypted_data_table` RPC when
missing — when that also fails, fall back to the profiles document; insert
the row — on an insert error, fall back to the profiles document.  Every
thrown error is wrapped as `Failed to store data in Supabase: …`. -/
def storeEncryptedData (userId : String) (data : Value) (dataType : String)
    (encryptionKey : Key) (w : World) : Except String Nat × World :=
  let wrap : Except String Nat × World → Except String Nat × World := fun r =>
    match r with
    | (.error e, w₁) => (.error ("Failed to store data in Supabase: " ++ e), w₁)
    | ok => ok
  if !w.supa.authed then
    (.error "Failed to store data in Supabase: Error: User not authenticated", w)
  else
    let encryptedContent := EncryptionService.encryptData data encryptionKey
    if !w.supa.tableExists && !w.supa.createRpcOk then
      wrap (storeInProfilesTable userId dataType encryptedContent w)
    else if w.supa.insertFail then
      wrap (storeInProfilesTable userId dataType encryptedContent w)
    else
      let row : SupaRow :=
        ⟨w.clock, userId, dataType, encryptedContent, "supabase", w.clock, w.clock⟩
      (.ok w.clock,
        { w with clock := w.clock + 1,
                 supa := { w.supa with rows := w.supa.rows ++ [row] } })

/-- Decrypt every fetched row (`data.map(item => decryptData(…))`); the
first failure throws out of the whole call. -/
def decryptRows (encryptionKey : Key) : List SupaRow → Except String (List Value)
  | [] => .ok []
  | r :: rest =>
    match EncryptionService.decryptData r.encrypted_content encryptionKey with
    | .error e => .error e
    | .ok v =>
      match decryptRows encryptionKey rest with
      | .error e => .error e
      | .ok vs => .ok (v :: vs)

/-- The rows the retrieval query selects: `user_id`, `data_type` and
`storage_location = 'supabase'` all match. -/
def selectRows (s : SupaState) (userId dataType : String) : List SupaRow :=
  s.rows.filter (fun r =>
    r.user_id == userId && r.data_type == dataType && r.storage_location == "supabase")

/-- `SupabaseStorage.retrieveEncryptedData`: select by
`(user_id, data_type, storage_location)` and decrypt each row; the
profiles-table fallback rows are *not* consulted.  No authentication
check is performed on this path. -/
def retrieveEncryptedData (userId dataType : String) (encryptionKey : Key)
    (s : SupaState) : Except String (List Value) :=
  if s.netFail then .error "Failed to retrieve data from Supabase: network error"
  else
    match decryptRows encryptionKey (selectRows s userId dataType) with
    | .error e => .error ("Failed to retrieve data from Supabase: " ++ e)
    | .ok vs => .ok vs

/-- `SupabaseStorage.updateEncryptedData`: re-encrypt and issue
`update … eq('id', id)`.  The call succeeds whether or not any row
matches — a missing id updates zero rows without an error. -/
def updateEncryptedData (id : Nat) (data : Value) (encryptionKey : Key)
    (w : World) : Except String Unit × World :=
  let encryptedContent := EncryptionService.encryptData data encryptionKey
  if w.supa.netFail then (.error "Failed to update data in Supabase: network error", w)
  else
    (.ok (),
      { w with supa := { w.supa with rows := w.supa.rows.map (fun r =>
          if r.id = id then
            { r with encrypted_content := encryptedContent, updated_at := w.clock }
          else r) } })

/-- `SupabaseStorage.listUserData`: the rows of the user (all data
types), used by the manager's stats. -/
def listUserData (userId : String) (s : SupaState) : Except String (List SupaRow) :=
  if s.netFail then .error "Failed to list user data: network error"
  else .ok (s.rows.filter (fun r =>
    r.user_id == userId && r.storage_location == "supabase"))

end SupabaseStorage

/-! ## The Storage Manager -/

/-- `StorageOption` (src/services/storage/storageManager.ts): the closed
set of backend identifiers. -/
inductive StorageOption where
  | googleDrive : StorageOption
  | supabase : StorageOption
  | local : StorageOption
deriving DecidableEq, Repr

/-- The string tag of a backend, as used in error messages. -/
def StorageOption.label : StorageOption → String
  | .googleDrive => "google-drive"
  | .supabase => "supabase"
  | .local => "local"

/-- `StorageConfig`: user id, encryption key and the ordered list of
enabled backends. -/
structure StorageConfig where
  userId : String
  encryptionKey : Key
  enabledStorages : List StorageOption
deriving DecidableEq, Repr

namespace StorageManager

/-- The body of one iteration of the `storeData` loop: the `switch` that
dispatches the store to one backend. -/
def storeAttempt (cfg : StorageConfig) (data : Value) (dataType : String)
    (s : StorageOption) (w : World) : Except String Nat × World :=
  match s with
  | .googleDrive => GoogleDriveStorage.storeEncryptedData data dataType cfg.encryptionKey w
  | .supabase => SupabaseStorage.storeEncryptedData cfg.userId data dataType cfg.encryptionKey w
  | .local => LocalStorage.storeEncryptedData cfg.userId data dataType cfg.encryptionKey w

/-- The `for` loop of `storeData`, instrumented with the list of per-
backend outcomes (`some id` on success, `none` on a caught error); the
instrumentation only records what the iteration did.  `results` is the
keyed result map (`results[storage] = id`), `errors` the caught error
messages `storage + ': ' + error`. -/
def storeGo (cfg : StorageConfig) (data : Value) (dataType : String) :
    List StorageOption → List (StorageOption × Option Nat) →
    List (StorageOption × Nat) → List String → World →
    List (StorageOption × Option Nat) × List (StorageOption × Nat) × List String × World
  | [], outs, results, errors, w => (outs, results, errors, w)
  | s :: rest, outs, results, errors, w =>
    match storeAttempt cfg data dataType s w with
    | (.ok id, w₁) =>
      storeGo cfg data dataType rest (outs ++ [(s, some id)])
        (SupabaseStorage.assocSet results s id) errors w₁
    | (.error e, w₁) =>
      storeGo cfg data dataType rest (outs ++ [(s, none)]) results
        (errors ++ [s.label ++ ": " ++ e]) w₁

/-- `StorageManager.storeData`: attempt a store on every enabled backend,
collecting per-backend results and caught errors; throw `All storage
options failed` exactly when the error count equals the number of enabled
backends.  Returned as (instrumented outcome list, result, world); the
aggregated error keeps the sub-error list the source joins into the
thrown message. -/
def storeData (cfg : StorageConfig) (data : Value) (dataType : String)
    (w : World) :
    List (StorageOption × Option Nat) ×
      Except (List String) (List (StorageOption × Nat)) × World :=
  match storeGo cfg data dataType cfg.enabledStorages [] [] [] w with
  | (outs, results, errors, w₁) =>
    if errors.length = cfg.enabledStorages.length then (outs, .error errors, w₁)
    else (outs, .ok results, w₁)

/-- Fetch and decrypt each listed Google Drive file in order
(the `for (const file of dataFiles)` loop of `retrieveData`). -/
def driveFetchAll (encryptionKey : Key) (d : DriveState) :
    List DriveFile → Except String (List Value)
  | [] => .ok []
  | f :: rest =>
    match GoogleDriveStorage.retrieveEncryptedData f.id encryptionKey d with
    | .error e => .error e
    | .ok v =>
      match driveFetchAll encryptionKey d rest with
      | .error e => .error e
      | .ok vs => .ok (v :: vs)

/-- The body of one iteration of the `retrieveData` loop: the `switch`
that reads from one backend.  Supabase: one query.  Google Drive: list the
folder, keep the files whose name starts with the data type, return `[]`
when there are none, otherwise fetch and decrypt each.  Local: the index-
driven read.  No branch mutates the world (the abstracted folder creation
is the only mutation of the source on this path). -/
def retrieveAttempt (cfg : StorageConfig) (dataType : String)
    (s : StorageOption) (w : World) : Except String (List Value) :=
  match s with
  | .supabase =>
    SupabaseStorage.retrieveEncryptedData cfg.userId dataType cfg.encryptionKey w.supa
  | .googleDrive =>
    match GoogleDriveStorage.listEncryptedFiles w.drive with
    | .error e => .error e
    | .ok files =>
      let dataFiles := files.filter (fun f => nameStartsWith f.name dataType)
      if dataFiles.isEmpty then .ok []
      else driveFetchAll cfg.encryptionKey w.drive dataFiles
  | .local =>
    LocalStorage.retrieveEncryptedData cfg.userId dataType cfg.encryptionKey w.browser

/-- The `for` loop of `retrieveData`, instrumented with the list of
backends attempted so far: a successful attempt returns its result at
once, a caught error records `storage + ': ' + error` and continues. -/
def retrieveGo (cfg : StorageConfig) (dataType : String) (w : World) :
    List StorageOption → List StorageOption → List String →
    List StorageOption × Except (List String) (List Value)
  | [], trace, errors => (trace, .error errors)
  | s :: rest, trace, errors =>
    match retrieveAttempt cfg dataType s w with
    | .ok vs => (trace ++ [s], .ok vs)
    | .error e =>
      retrieveGo cfg dataType w rest (trace ++ [s]) (errors ++ [s.label ++ ": " ++ e])

/-- `StorageManager.retrieveData`: try the enabled backends in configured
order and return the first successful read; when every attempt throws,
throw `All storage options failed` carrying one sub-error per backend.
Returned as (attempted backends, result); the world is unchanged on this
path. -/
def retrieveData (cfg : StorageConfig) (dataType : String) (w : World) :
    List StorageOption × Except (List String) (List Value) :=
  retrieveGo cfg dataType w cfg.enabledStorages [] []

/-- `StorageManager.storeDataInSpecificStorage`: store each item of
`data` into the one given backend (the same per-backend `switch` as
`storeData`); the first thrown error aborts. -/
def storeDataInSpecificStorage (cfg : StorageConfig) (data : List Value)
    (dataType : String) (s : StorageOption) (w : World) :
    Except String Unit × World :=
  match data with
  | [] => (.ok (), w)
  | v :: rest =>
    match storeAttempt cfg v dataType s w with
    | (.ok _, w₁) => storeDataInSpecificStorage cfg rest dataType s w₁
    | (.error e, w₁) => (.error e, w₁)

/-- The `for` loop of `syncData` over the non-primary backends. -/
def syncRest (cfg : StorageConfig) (primaryData : List Value) (dataType : String) :
    List StorageOption → World → Except String Unit × World
  | [], w => (.ok (), w)
  | s :: rest, w =>
    match storeDataInSpecificStorage cfg primaryData dataType s w with
    | (.ok _, w₁) => syncRest cfg primaryData dataType rest w₁
    | (.error e, w₁) => (.error e, w₁)

/-- The `switch (primaryStorage)` of `syncData`: it has cases for
`supabase` and `local` only, so a `google-drive` primary leaves
`primaryData` at its initial `[]`. -/
def primaryRead (cfg : StorageConfig) (dataType : String) (w : World) :
    StorageOption → Except String (List Value)
  | .supabase =>
    SupabaseStorage.retrieveEncryptedData cfg.userId dataType cfg.encryptionKey w.supa
  | .local =>
    LocalStorage.retrieveEncryptedData cfg.userId dataType cfg.encryptionKey w.browser
  | .googleDrive => .ok []

/-- `StorageManager.syncData`: read all records of the data type from the
first configured backend and store each into every other enabled backend;
any thrown error is wrapped as `Sync failed: …`.  With no enabled
backend, `enabledStorages[0]` is `undefined`, no `switch` case matches,
`primaryData` stays `[]` and the call resolves successfully. -/
def syncData (cfg : StorageConfig) (dataType : String) (w : World) :
    Except String Unit × World :=
  match cfg.enabledStorages with
  | [] => (.ok (), w)
  | primary :: rest =>
    match primaryRead cfg dataType w primary with
    | .error e => (.error ("Sync failed: " ++ e), w)
    | .ok primaryData =>
      match syncRest cfg primaryData dataType rest w with
      | (.ok _, w₁) => (.ok (), w₁)
      | (.error e, w₁) => (.error ("Sync failed: " ++ e), w₁)

end StorageManager

/-! ## Observations on the states

Record counts per backend, used to state the sync and duplication
properties: how many records of one user and data type a backend
physically holds. -/

/-- Whether a `localStorage` binding is a record of `(userId, dataType)`. -/
def isRecordOf (userId dataType : String) (p : LSKey × StoredVal) : Bool :=
  match p.1 with
  | .record u₁ dt₁ _ => u₁ == userId && dt₁ == dataType
  | .index _ => false

/-- The records of `(userId, dataType)` physically present in the Local
Backend's store (whether or not the index references them). -/
def localRecordCount (userId dataType : String) (b : Browser) : Nat :=
  (b.map.filter (isRecordOf userId dataType)).length

/-- The records of `(userId, dataType)` the Relational Backend holds:
dedicated rows plus profiles-fallback entries. -/
def supaRecordCount (userId dataType : String) (s : SupaState) : Nat :=
  (SupabaseStorage.selectRows s userId dataType).length +
    (((SupabaseStorage.assocGet s.profiles userId).getD []).filter
      (fun e => e.data_type == dataType)).length

/-- The records of a data type the Cloud File Backend holds: files whose
name starts with the data type. -/
def driveRecordCount (dataType : String) (d : DriveState) : Nat :=
  (d.files.filter (fun f => nameStartsWith f.name dataType)).length

/-- The record count of one backend for the configuration's user and a
data type. -/
def backendCount (cfg : StorageConfig) (dataType : String) :
    StorageOption → World → Nat
  | .local, w => localRecordCount cfg.userId dataType w.browser
  | .supabase, w => supaRecordCount cfg.userId dataType w.supa
  | .googleDrive, w => driveRecordCount dataType w.drive

/-- The ciphertext payloads physically present in the Local Backend's
store. -/
def localPayloads (m : List (LSKey × StoredVal)) : List Ciphertext :=
  m.filterMap (fun p =>
    match p.2 with
    | .item it => some it.encryptedContent
    | .idx _ => none)

/-- The ciphertext payloads of the profiles-fallback documents. -/
def profilesPayloads (ps : List (String × List ProfileEntry)) : List Ciphertext :=
  ps.foldr (fun p acc => p.2.map (fun e => e.encrypted_content) ++ acc) []

/-- The ciphertext payloads the Relational Backend holds: dedicated rows
plus profiles-fallback entries. -/
def supaPayloads (s : SupaState) : List Ciphertext :=
  s.rows.map (fun r => r.encrypted_content) ++ profilesPayloads s.profiles

/-- The ciphertext payloads the Cloud File Backend holds. -/
def drivePayloads (d : DriveState) : List Ciphertext :=
  d.files.map (fun f => f.content)

/-- Every ciphertext payload persisted anywhere in the world. -/
def persistedPayloads (w : World) : List Ciphertext :=
  drivePayloads w.drive ++ supaPayloads w.supa ++ localPayloads w.browser.map

/-- The ciphertext-opacity contract: every payload a store or update
leaves behind is either a previously persisted ciphertext or the
encryption of the written plaintext under the configuration's key (no
operation persists the plaintext itself), and every value a retrieval
returns is the decryption, under that key, of some persisted
ciphertext (no operation returns a stored payload without decrypting
it). -/
def OpacitySpec (cfg : StorageConfig) (data : Value) (dataType : String)
    (w : World) : Prop :=
  (∀ s : StorageOption,
    ∀ c ∈ persistedPayloads (StorageManager.storeAttempt cfg data dataType s w).2,
      c ∈ persistedPayloads w ∨
        c = EncryptionService.encryptData data cfg.encryptionKey) ∧
  (∀ s : StorageOption, ∀ vs,
    StorageManager.retrieveAttempt cfg dataType s w = .ok vs →
      ∀ x ∈ vs, ∃ c ∈ persistedPayloads w,
        EncryptionService.decryptData c cfg.encryptionKey = .ok x) ∧
  (∀ id, ∀ c ∈ persistedPayloads
      (SupabaseStorage.updateEncryptedData id data cfg.encryptionKey w).2,
    c ∈ persistedPayloads w ∨
      c = EncryptionService.encryptData data cfg.encryptionKey) ∧
  (∀ u id dt₁, ∀ c ∈ persistedPayloads
      (LocalStorage.updateEncryptedData u id dt₁ data cfg.encryptionKey w).2,
    c ∈ persistedPayloads w ∨
      c = EncryptionService.encryptData data cfg.encryptionKey)

/-! ## Sample states

Concrete fixtures used by witnesses and counterexamples. -/

/-- A sample plaintext record. -/
def sampleValue : Value := .vobj [("name", .pstr "Paracetamol")]

/-- A sample encryption key. -/
def sampleKey : Key := "k1"

/-- A Cloud File Backend with no cached token. -/
def driveOffline : DriveState := ⟨false, false, []⟩

/-- A healthy, empty Relational Backend. -/
def supaReady : SupaState := ⟨true, true, false, false, false, false, [], []⟩

/-- A Relational Backend whose queries fail. -/
def supaDown : SupaState := { supaReady with netFail := true }

/-- A Relational Backend with no authenticated session. -/
def supaUnauthed : SupaState := { supaReady with authed := false }

/-- An empty world with a comfortable local quota. -/
def sampleWorld : World := ⟨⟨[], 10⟩, driveOffline, supaReady, 0⟩

/-- An empty world whose local store can hold exactly one entry. -/
def quotaOneWorld : World := ⟨⟨[], 1⟩, driveOffline, supaReady, 0⟩

/-- Supabase failing, Google Drive authenticated and empty: the second
backend answers (with an empty list). -/
def failoverWorld : World := ⟨⟨[], 10⟩, ⟨true, false, []⟩, supaDown, 0⟩

/-- Google Drive authenticated and holding one encrypted `medicines`
record; everything else empty and healthy. -/
def driveFileWorld : World :=
  ⟨⟨[], 10⟩,
   ⟨true, false, [⟨7, "medicines_7.encrypted",
     EncryptionService.encryptData sampleValue sampleKey⟩]⟩,
   supaReady, 8⟩

/-- Local healthy, Supabase unauthenticated: a partial fan-out failure. -/
def partialWorld : World := ⟨⟨[], 10⟩, driveOffline, supaUnauthed, 0⟩

/-- A world holding exactly one local `medicines` record (stored through
the Local Backend), used as a sync source. -/
def syncSourceWorld : World :=
  (LocalStorage.storeEncryptedData "u" sampleValue "medicines" "k1" sampleWorld).2

/-! ## Contracts

The `Prop`-valued contracts the claims are stated with. -/

/-- The failover contract of `StorageManager.retrieveData`: either the
enabled list splits as `pre ++ b :: post` where every backend of `pre`
fails, `b` succeeds (possibly with an empty list), the call returns `b`'s
result and the attempted backends are exactly `pre ++ [b]` (nothing after
the first success is attempted); or every enabled backend fails and the
call throws the aggregated error carrying one sub-error per enabled
backend. -/
def FailoverSpec (cfg : StorageConfig) (dataType : String) (w : World) : Prop :=
  (∃ pre b post,
    cfg.enabledStorages = pre ++ b :: post ∧
    (∀ s ∈ pre, ∃ e, StorageManager.retrieveAttempt cfg dataType s w = .error e) ∧
    (∃ vs, StorageManager.retrieveAttempt cfg dataType b w = .ok vs ∧
      StorageManager.retrieveData cfg dataType w = (pre ++ [b], .ok vs))) ∨
  ((∀ s ∈ cfg.enabledStorages, ∃ e,
      StorageManager.retrieveAttempt cfg dataType s w = .error e) ∧
    (∃ errs, StorageManager.retrieveData cfg dataType w =
        (cfg.enabledStorages, .error errs) ∧
      errs.length = cfg.enabledStorages.length))

/-- The fan-out contract of `StorageManager.storeData`: every enabled
backend is attempted; the call throws exactly when every attempt failed,
and then the aggregated error carries one sub-error per enabled backend;
otherwise it returns the result map whose keys are exactly the backends
that persisted the data.  (Failure detail for the backends that did not
persist is not part of the returned value — see the counterexample.) -/
def StoreFanoutSpec (cfg : StorageConfig) (data : Value) (dataType : String)
    (w : World) : Prop :=
  (StorageManager.storeData cfg data dataType w).1.map Prod.fst = cfg.enabledStorages ∧
  (∀ errs, (StorageManager.storeData cfg data dataType w).2.1 = .error errs →
    errs.length = cfg.enabledStorages.length ∧
    ∀ o ∈ (StorageManager.storeData cfg data dataType w).1, o.2 = none) ∧
  (∀ m, (StorageManager.storeData cfg data dataType w).2.1 = .ok m →
    (∃ o ∈ (StorageManager.storeData cfg data dataType w).1, o.2 ≠ none) ∧
    ∀ s : StorageOption, (SupabaseStorage.assocGet m s).isSome ↔
      ∃ id, (s, some id) ∈ (StorageManager.storeData cfg data dataType w).1)

/-- Every record identifier already present in the local store was
generated before the current clock (all generated identifiers are
fresh). -/
def ClockFresh (w : World) : Prop :=
  ∀ p ∈ w.browser.map, ∀ uid dt id, p.1 = LSKey.record uid dt id → id < w.clock

/-- The conditions under which a store into one backend succeeds:
Supabase needs an authenticated session, the dedicated table and a
working insert; Google Drive needs a cached token and a working network;
the Local Backend needs fresh identifiers (its quota is budgeted
separately). -/
def StoreReady : StorageOption → World → Prop
  | .supabase, w => w.supa.authed = true ∧ w.supa.tableExists = true ∧
      w.supa.insertFail = false
  | .googleDrive, w => w.drive.accessToken = true ∧ w.drive.netFail = false
  | .local, w => ClockFresh w

/-- The failure-injection flags of the Relational Backend, bundled to
state that operations preserve them. -/
def supaFlags (s : SupaState) : Bool × Bool × Bool × Bool × Bool × Bool :=
  (s.authed, s.tableExists, s.createRpcOk, s.insertFail, s.netFail, s.profilesFail)

/-- One Local Backend operation of a store/delete sequence (the claims'
"any finite sequence of store and delete operations"). -/
inductive LocalOp where
  | storeOp : Value → String → Key → LocalOp
  | deleteOp : Nat → String → LocalOp

/-- Apply one Local Backend operation for the given user, keeping the
world it leaves behind whether or not the operation succeeded. -/
def applyLocalOp (userId : String) (w : World) : LocalOp → World
  | .storeOp data dataType key => (LocalStorage.storeEncryptedData userId data dataType key w).2
  | .deleteOp id dataType => (LocalStorage.deleteEncryptedData userId id dataType w).2

/-- Run a sequence of Local Backend operations for one user. -/
def runLocalOps (userId : String) : World → List LocalOp → World
  | w, [] => w
  | w, op :: rest => runLocalOps userId (applyLocalOp userId w op) rest

/-- The Local Backend's index/record consistency invariant, at the level
of one browser state and a clock bound: every index entry of the user
references a physically present record with matching identifier, data
type and owner; index identifiers are pairwise distinct; all index
identifiers and all stored record keys are below the clock; and the
store's keys are pairwise distinct. -/
structure BInv (b : Browser) (clock : Nat) (userId : String) : Prop where
  sound : ∀ e ∈ LocalStorage.getIndex b userId,
    ∃ it : LocalItem,
      LocalStorage.lsGet b.map (.record userId e.dataType e.id) = some (.item it) ∧
      it.id = e.id ∧ it.dataType = e.dataType ∧ it.userId = userId
  nodup : ((LocalStorage.getIndex b userId).map (fun e => e.id)).Nodup
  fresh : ∀ e ∈ LocalStorage.getIndex b userId, e.id < clock
  freshRec : ∀ p ∈ b.map, ∀ uid dt id, p.1 = LSKey.record uid dt id → id < clock
  keysNodup : (b.map.map Prod.fst).Nodup

/-- The Local Backend's consistency invariant of a world for one user. -/
def LocalInv (w : World) (userId : String) : Prop :=
  BInv w.browser w.clock userId

/-! ## Toolbox: primitive facts about the local key-value store -/

theorem lsGet_some_mem {m : List (LSKey × StoredVal)} {k : LSKey} {v : StoredVal}
    (h : LocalStorage.lsGet m k = some v) : (k, v) ∈ m := by
  induction m with
  | nil => simp [LocalStorage.lsGet] at h
  | cons p rest ih =>
    obtain ⟨k₁, v₁⟩ := p
    by_cases hk : k₁ = k
    · subst hk
      simp [LocalStorage.lsGet] at h
      simp [h]
    · simp [LocalStorage.lsGet, hk] at h
      exact List.mem_cons_of_mem _ (ih h)

theorem lsGet_none_key_not_mem {m : List (LSKey × StoredVal)} {k : LSKey}
    (h : LocalStorage.lsGet m k = none) : k ∉ m.map Prod.fst := by
  induction m with
  | nil => simp
  | cons p rest ih =>
    obtain ⟨k₁, v₁⟩ := p
    by_cases hk : k₁ = k
    · subst hk
      simp [LocalStorage.lsGet] at h
    · simp [LocalStorage.lsGet, hk] at h
      simp only [List.map_cons, List.mem_cons]
      push_neg
      exact ⟨fun hh => hk hh.symm, ih h⟩

theorem lsGet_lsSetEntry (m : List (LSKey × StoredVal)) (k k' : LSKey)
    (v : StoredVal) :
    LocalStorage.lsGet (LocalStorage.lsSetEntry m k v) k' =
      if k' = k then some v else LocalStorage.lsGet m k' := by
  induction m with
  | nil =>
    by_cases hk : k' = k
    · subst hk
      simp [LocalStorage.lsSetEntry, LocalStorage.lsGet]
    · have hk' : ¬ k = k' := fun hh => hk hh.symm
      simp [LocalStorage.lsSetEntry, LocalStorage.lsGet, hk, hk']
  | cons p rest ih =>
    obtain ⟨k₁, v₁⟩ := p
    simp only [LocalStorage.lsSetEntry]
    by_cases h₁ : k₁ = k
    · subst h₁
      by_cases h₂ : k' = k₁
      · subst h₂
        simp [LocalStorage.lsGet]
      · have h₂' : ¬ k₁ = k' := fun hh => h₂ hh.symm
        simp [LocalStorage.lsGet, h₂, h₂']
    · by_cases h₂ : k₁ = k'
      · subst h₂
        simp only [if_neg h₁]
        simp [LocalStorage.lsGet]
      · simp only [if_neg h₁]
        simp [LocalStorage.lsGet, h₂, ih]

theorem mem_lsSetEntry {m : List (LSKey × StoredVal)} {k : LSKey} {v : StoredVal}
    {p : LSKey × StoredVal} (h : p ∈ LocalStorage.lsSetEntry m k v) :
    p ∈ m ∨ p = (k, v) := by
  induction m with
  | nil =>
    simp [LocalStorage.lsSetEntry] at h
    exact Or.inr h
  | cons q rest ih =>
    obtain ⟨k₁, v₁⟩ := q
    by_cases hk : k₁ = k
    · subst hk
      simp only [LocalStorage.lsSetEntry, if_pos rfl] at h
      rcases List.mem_cons.mp h with rfl | hmem
      · exact Or.inr rfl
      · exact Or.inl (List.mem_cons_of_mem _ hmem)
    · simp only [LocalStorage.lsSetEntry, if_neg hk] at h
      rcases List.mem_cons.mp h with rfl | hmem
      · exact Or.inl (by simp)
      · rcases ih hmem with hmem₁ | rfl
        · exact Or.inl (List.mem_cons_of_mem _ hmem₁)
        · exact Or.inr rfl

theorem length_lsSetEntry_present {m : List (LSKey × StoredVal)} {k : LSKey}
    {x : StoredVal} (h : LocalStorage.lsGet m k = some x) (v : StoredVal) :
    (LocalStorage.lsSetEntry m k v).length = m.length := by
  induction m with
  | nil => simp [LocalStorage.lsGet] at h
  | cons q rest ih =>
    obtain ⟨k₁, v₁⟩ := q
    by_cases hk : k₁ = k
    · subst hk
      simp [LocalStorage.lsSetEntry]
    · simp [LocalStorage.lsGet, hk] at h
      simp [LocalStorage.lsSetEntry, hk, ih h]

theorem keys_lsSetEntry_present {m : List (LSKey × StoredVal)} {k : LSKey}
    {x : StoredVal} (h : LocalStorage.lsGet m k = some x) (v : StoredVal) :
    (LocalStorage.lsSetEntry m k v).map Prod.fst = m.map Prod.fst := by
  induction m with
  | nil => simp [LocalStorage.lsGet] at h
  | cons q rest ih =>
    obtain ⟨k₁, v₁⟩ := q
    by_cases hk : k₁ = k
    · subst hk
      simp [LocalStorage.lsSetEntry]
    · simp [LocalStorage.lsGet, hk] at h
      simp [LocalStorage.lsSetEntry, hk, ih h]

theorem lsGet_append_of_none {m : List (LSKey × StoredVal)} {k : LSKey}
    (h : LocalStorage.lsGet m k = none) (k' : LSKey) (v : StoredVal) :
    LocalStorage.lsGet (m ++ [(k, v)]) k' =
      if k' = k then some v else LocalStorage.lsGet m k' := by
  induction m with
  | nil =>
    by_cases hk : k' = k
    · subst hk
      simp [LocalStorage.lsGet]
    · have hk' : ¬ k = k' := fun hh => hk hh.symm
      simp [LocalStorage.lsGet, hk, hk']
  | cons q rest ih =>
    obtain ⟨k₁, v₁⟩ := q
    by_cases h₁ : k₁ = k
    · subst h₁
      simp [LocalStorage.lsGet] at h
    · simp only [LocalStorage.lsGet] at h
      rw [if_neg h₁] at h
      by_cases h₂ : k₁ = k'
      · subst h₂
        simp [LocalStorage.lsGet, h₁]
      · simp [LocalStorage.lsGet, h₂]
        exact ih h

theorem setItem_ok_get {b : Browser} {k : LSKey} {v : StoredVal} {b₁ : Browser}
    (h : LocalStorage.setItem b k v = .ok b₁) (k' : LSKey) :
    LocalStorage.lsGet b₁.map k' =
      if k' = k then some v else LocalStorage.lsGet b.map k' := by
  unfold LocalStorage.setItem at h
  cases hg : LocalStorage.lsGet b.map k with
  | some x =>
    rw [hg] at h
    simp at h
    subst h
    exact lsGet_lsSetEntry b.map k k' v
  | none =>
    rw [hg] at h
    by_cases hq : b.map.length < b.quota
    · rw [if_pos hq] at h
      simp at h
      subst h
      exact lsGet_append_of_none hg k' v
    · rw [if_neg hq] at h
      simp at h

theorem setItem_ok_mem {b : Browser} {k : LSKey} {v : StoredVal} {b₁ : Browser}
    (h : LocalStorage.setItem b k v = .ok b₁) :
    ∀ p ∈ b₁.map, p ∈ b.map ∨ p = (k, v) := by
  unfold LocalStorage.setItem at h
  cases hg : LocalStorage.lsGet b.map k with
  | some x =>
    rw [hg] at h
    simp at h
    subst h
    exact fun p hp => mem_lsSetEntry hp
  | none =>
    rw [hg] at h
    by_cases hq : b.map.length < b.quota
    · rw [if_pos hq] at h
      simp at h
      subst h
      intro p hp
      rcases List.mem_append.mp hp with hmem | hmem
      · exact Or.inl hmem
      · exact Or.inr (by simpa using hmem)
    · rw [if_neg hq] at h
      simp at h

theorem setItem_ok_quota {b : Browser} {k : LSKey} {v : StoredVal} {b₁ : Browser}
    (h : LocalStorage.setItem b k v = .ok b₁) : b₁.quota = b.quota := by
  unfold LocalStorage.setItem at h
  cases hg : LocalStorage.lsGet b.map k with
  | some x =>
    rw [hg] at h
    simp at h
    subst h
    rfl
  | none =>
    rw [hg] at h
    by_cases hq : b.map.length < b.quota
    · rw [if_pos hq] at h
      simp at h
      subst h
      rfl
    · rw [if_neg hq] at h
      simp at h

theorem setItem_ok_length {b : Browser} {k : LSKey} {v : StoredVal} {b₁ : Browser}
    (h : LocalStorage.setItem b k v = .ok b₁) :
    b₁.map.length ≤ b.map.length + 1 := by
  unfold LocalStorage.setItem at h
  cases hg : LocalStorage.lsGet b.map k with
  | some x =>
    rw [hg] at h
    simp at h
    subst h
    simp [length_lsSetEntry_present hg]
  | none =>
    rw [hg] at h
    by_cases hq : b.map.length < b.quota
    · rw [if_pos hq] at h
      simp at h
      subst h
      simp
    · rw [if_neg hq] at h
      simp at h

theorem setItem_ok_keysNodup {b : Browser} {k : LSKey} {v : StoredVal} {b₁ : Browser}
    (h : LocalStorage.setItem b k v = .ok b₁)
    (hn : (b.map.map Prod.fst).Nodup) : (b₁.map.map Prod.fst).Nodup := by
  unfold LocalStorage.setItem at h
  cases hg : LocalStorage.lsGet b.map k with
  | some x =>
    rw [hg] at h
    simp at h
    subst h
    rw [keys_lsSetEntry_present hg]
    exact hn
  | none =>
    rw [hg] at h
    by_cases hq : b.map.length < b.quota
    · rw [if_pos hq] at h
      simp at h
      subst h
      simp only [List.map_append, List.map_cons, List.map_nil]
      rw [List.nodup_append]
      refine ⟨hn, by simp, ?_⟩
      intro a ha hak
      simp at hak
      subst hak
      exact lsGet_none_key_not_mem hg ha
    · rw [if_neg hq] at h
      simp at h

theorem filter_isRecordOf_lsSetEntry_index (m : List (LSKey × StoredVal))
    (u₂ : String) (v : StoredVal) (u dt : String) :
    ((LocalStorage.lsSetEntry m (.index u₂) v).filter (isRecordOf u dt)).length =
      (m.filter (isRecordOf u dt)).length := by
  induction m with
  | nil => simp [LocalStorage.lsSetEntry, isRecordOf]
  | cons q rest ih =>
    obtain ⟨k₁, v₁⟩ := q
    by_cases hk : k₁ = LSKey.index u₂
    · subst hk
      simp [LocalStorage.lsSetEntry, isRecordOf, List.filter_cons]
    · simp only [LocalStorage.lsSetEntry, if_neg hk, List.filter_cons]
      cases h : isRecordOf u dt (k₁, v₁) <;> simp [h, ih]

theorem lsGet_eq_none_of_key_not_mem {m : List (LSKey × StoredVal)} {k : LSKey}
    (h : k ∉ m.map Prod.fst) : LocalStorage.lsGet m k = none := by
  induction m with
  | nil => rfl
  | cons q rest ih =>
    obtain ⟨k₁, v₁⟩ := q
    simp only [List.map_cons, List.mem_cons] at h
    push_neg at h
    have hk : ¬ k₁ = k := fun hh => h.1 hh.symm
    simp [LocalStorage.lsGet, hk, ih h.2]

theorem lsGet_lsRemoveKey_ne {m : List (LSKey × StoredVal)} {k k' : LSKey}
    (h : ¬ k' = k) :
    LocalStorage.lsGet (LocalStorage.lsRemoveKey m k) k' =
      LocalStorage.lsGet m k' := by
  induction m with
  | nil => rfl
  | cons q rest ih =>
    obtain ⟨k₁, v₁⟩ := q
    by_cases hk : k₁ = k
    · subst hk
      have : ¬ k₁ = k' := fun hh => h (hh.symm)
      simp [LocalStorage.lsRemoveKey, LocalStorage.lsGet, this]
    · simp only [LocalStorage.lsRemoveKey, if_neg hk]
      by_cases h₂ : k₁ = k'
      · subst h₂
        simp [LocalStorage.lsGet]
      · simp [LocalStorage.lsGet, h₂, ih]

theorem lsGet_lsRemoveKey_self {m : List (LSKey × StoredVal)} {k : LSKey}
    (hn : (m.map Prod.fst).Nodup) :
    LocalStorage.lsGet (LocalStorage.lsRemoveKey m k) k = none := by
  induction m with
  | nil => rfl
  | cons q rest ih =>
    obtain ⟨k₁, v₁⟩ := q
    simp only [List.map_cons, List.nodup_cons] at hn
    by_cases hk : k₁ = k
    · subst hk
      simp only [LocalStorage.lsRemoveKey, if_pos rfl]
      exact lsGet_eq_none_of_key_not_mem hn.1
    · simp [LocalStorage.lsRemoveKey, LocalStorage.lsGet, hk, ih hn.2]

theorem setItem_error_get {b : Browser} {k : LSKey} {v : StoredVal} {e : String}
    (h : LocalStorage.setItem b k v = .error e) :
    LocalStorage.lsGet b.map k = none := by
  unfold LocalStorage.setItem at h
  cases hg : LocalStorage.lsGet b.map k with
  | some x =>
    rw [hg] at h
    simp at h
  | none => rfl

theorem fold_removeItem_lsGet {u : String} (es : List IndexEntry) :
    ∀ (b : Browser) (k : LSKey),
      (∀ e ∈ es, LSKey.record u e.dataType e.id ≠ k) →
      LocalStorage.lsGet
        ((es.foldl (fun acc e =>
          LocalStorage.removeItem acc (.record u e.dataType e.id)) b).map) k =
        LocalStorage.lsGet b.map k := by
  induction es with
  | nil => intro b k _; rfl
  | cons e rest ih =>
    intro b k hne
    rw [List.foldl_cons,
      ih (LocalStorage.removeItem b (.record u e.dataType e.id)) k
        (fun e₁ he₁ => hne e₁ (List.mem_cons_of_mem _ he₁))]
    exact lsGet_lsRemoveKey_ne (fun hh => hne e (by simp) hh.symm)

theorem lsRemoveKey_sublist (m : List (LSKey × StoredVal)) (k : LSKey) :
    List.Sublist (LocalStorage.lsRemoveKey m k) m := by
  induction m with
  | nil => simp [LocalStorage.lsRemoveKey]
  | cons q rest ih =>
    obtain ⟨k₁, v₁⟩ := q
    by_cases hk : k₁ = k
    · simp only [LocalStorage.lsRemoveKey, if_pos hk]
      exact List.sublist_cons_self _ _
    · simp only [LocalStorage.lsRemoveKey, if_neg hk]
      exact List.Sublist.cons₂ _ ih

theorem fold_removeItem_sublist {u : String} (es : List IndexEntry) :
    ∀ (b : Browser),
      List.Sublist
        ((es.foldl (fun acc e =>
          LocalStorage.removeItem acc (.record u e.dataType e.id)) b).map)
        b.map := by
  induction es with
  | nil => intro b; exact List.Sublist.refl _
  | cons e rest ih =>
    intro b
    rw [List.foldl_cons]
    exact (ih _).trans (lsRemoveKey_sublist _ _)

theorem setItem_ok_exists (b : Browser) (k : LSKey) (v : StoredVal)
    (hq : b.map.length < b.quota) :
    ∃ b₁, LocalStorage.setItem b k v = .ok b₁ := by
  unfold LocalStorage.setItem
  cases hg : LocalStorage.lsGet b.map k with
  | some x => exact ⟨_, rfl⟩
  | none => exact ⟨_, by rw [if_pos hq]⟩

theorem setItem_index_count {b : Browser} {u : String} {v : StoredVal}
    {b₁ : Browser} (h : LocalStorage.setItem b (.index u) v = .ok b₁)
    (u₁ dt₁ : String) :
    localRecordCount u₁ dt₁ b₁ = localRecordCount u₁ dt₁ b := by
  unfold LocalStorage.setItem at h
  cases hg : LocalStorage.lsGet b.map (.index u) with
  | some x =>
    rw [hg] at h
    simp at h
    subst h
    exact filter_isRecordOf_lsSetEntry_index b.map u v u₁ dt₁
  | none =>
    rw [hg] at h
    by_cases hq : b.map.length < b.quota
    · rw [if_pos hq] at h
      simp at h
      subst h
      simp [localRecordCount, List.filter_append, isRecordOf]
    · rw [if_neg hq] at h
      simp at h

/-! ## Toolbox: store-success lemmas per backend -/

/-- A ready Relational Backend persists the insert: the call returns the
generated id and appends exactly one row holding the ciphertext. -/
theorem supaStore_insert (u : String) (v : Value) (dt : String) (k : Key)
    (w : World) (h1 : w.supa.authed = true) (h2 : w.supa.tableExists = true)
    (h3 : w.supa.insertFail = false) :
    SupabaseStorage.storeEncryptedData u v dt k w =
      (.ok w.clock,
        { w with clock := w.clock + 1,
                 supa := { w.supa with rows := w.supa.rows ++
                   [⟨w.clock, u, dt, EncryptionService.encryptData v k,
                     "supabase", w.clock, w.clock⟩] } }) := by
  simp [SupabaseStorage.storeEncryptedData, h1, h2, h3]

/-- A ready Cloud File Backend persists the upload: the call returns the
file id and appends exactly one file holding the ciphertext. -/
theorem driveStore_insert (v : Value) (dt : String) (k : Key) (w : World)
    (h1 : w.drive.accessToken = true) (h2 : w.drive.netFail = false) :
    GoogleDriveStorage.storeEncryptedData v dt k w =
      (.ok w.clock,
        { w with clock := w.clock + 1,
                 drive := { w.drive with files := w.drive.files ++
                   [⟨w.clock, dt ++ "_" ++ toString w.clock ++ ".encrypted",
                     EncryptionService.encryptData v k⟩] } }) := by
  simp [GoogleDriveStorage.storeEncryptedData, h1, h2]

/-- A generated file name starts with its data type. -/
theorem nameStartsWith_append (dt s : String) :
    nameStartsWith (dt ++ s) dt = true := by
  simp [nameStartsWith, String.data_append, List.take_left]

/-- With fresh identifiers and two entries of quota headroom, a local
store succeeds: the returned browser holds one more record of the stored
`(userId, dataType)`, at most two more entries, and only fresh
identifiers. -/
theorem localStore_insert (u : String) (v : Value) (dt : String) (k : Key)
    (w : World) (hfresh : ClockFresh w)
    (hq : w.browser.map.length + 2 ≤ w.browser.quota) :
    ∃ b₁ : Browser,
      LocalStorage.storeEncryptedData u v dt k w =
        (.ok w.clock, { w with clock := w.clock + 1, browser := b₁ }) ∧
      b₁.quota = w.browser.quota ∧
      b₁.map.length ≤ w.browser.map.length + 2 ∧
      (∀ u₁ dt₁, localRecordCount u₁ dt₁ b₁ =
        localRecordCount u₁ dt₁ w.browser + (if u₁ = u ∧ dt₁ = dt then 1 else 0)) ∧
      (∀ p ∈ b₁.map, ∀ uid dt₁ id, p.1 = LSKey.record uid dt₁ id → id < w.clock + 1) := by
  have hnone : LocalStorage.lsGet w.browser.map (.record u dt w.clock) = none := by
    cases hg : LocalStorage.lsGet w.browser.map (.record u dt w.clock) with
    | none => rfl
    | some x =>
      have := hfresh _ (lsGet_some_mem hg) u dt w.clock rfl
      omega
  have hset1 : LocalStorage.setItem w.browser (.record u dt w.clock)
      (.item ⟨w.clock, u, dt, EncryptionService.encryptData v k, "local",
        w.clock, w.clock⟩) =
      .ok ⟨w.browser.map ++ [(LSKey.record u dt w.clock,
        .item ⟨w.clock, u, dt, EncryptionService.encryptData v k, "local",
          w.clock, w.clock⟩)], w.browser.quota⟩ := by
    unfold LocalStorage.setItem
    rw [hnone, if_pos (by omega)]
  obtain ⟨b₁, hset2⟩ := setItem_ok_exists
    ⟨w.browser.map ++ [(LSKey.record u dt w.clock,
        .item ⟨w.clock, u, dt, EncryptionService.encryptData v k, "local",
          w.clock, w.clock⟩)], w.browser.quota⟩
    (.index u)
    (.idx (LocalStorage.getIndex
      ⟨w.browser.map ++ [(LSKey.record u dt w.clock,
        .item ⟨w.clock, u, dt, EncryptionService.encryptData v k, "local",
          w.clock, w.clock⟩)], w.browser.quota⟩ u ++ [⟨w.clock, dt, w.clock⟩]))
    (by simp; omega)
  refine ⟨b₁, ?_, ?_, ?_, ?_, ?_⟩
  · simp only [LocalStorage.storeEncryptedData, hset1, LocalStorage.updateIndex, hset2]
  · exact (setItem_ok_quota hset2).trans rfl
  · have := setItem_ok_length hset2
    simp at this
    omega
  · intro u₁ dt₁
    rw [setItem_index_count hset2 u₁ dt₁]
    simp only [localRecordCount, List.filter_append, List.length_append]
    by_cases h₁ : u₁ = u ∧ dt₁ = dt
    · obtain ⟨rfl, rfl⟩ := h₁
      simp [isRecordOf]
    · rw [if_neg h₁]
      have : (u == u₁ && dt == dt₁) = false := by
        rcases not_and_or.mp h₁ with h₂ | h₂
        · have : ¬ u = u₁ := fun hh => h₂ hh.symm
          simp [this]
        · have : ¬ dt = dt₁ := fun hh => h₂ hh.symm
          simp [this]
      simp [isRecordOf, this]
  · intro p hp uid dt₁ id heq
    rcases setItem_ok_mem hset2 p hp with hmem | rfl
    · simp only at hmem
      rcases List.mem_append.mp hmem with hmem₁ | hmem₁
      · have := hfresh p hmem₁ uid dt₁ id heq
        omega
      · simp at hmem₁
        subst hmem₁
        simp at heq
        obtain ⟨-, -, h₃⟩ := heq
        omega
    · simp at heq

/-! ## Toolbox: copying a record list into one backend -/

/-- Copying a list into a ready Relational Backend succeeds and adds one
row per item; nothing else changes. -/
theorem sdss_supabase (cfg : StorageConfig) (dt : String) :
    ∀ (l : List Value) (w : World),
      w.supa.authed = true → w.supa.tableExists = true → w.supa.insertFail = false →
      ∃ w₁, StorageManager.storeDataInSpecificStorage cfg l dt .supabase w =
          (.ok (), w₁) ∧
        w₁.browser = w.browser ∧
        w₁.drive = w.drive ∧
        w₁.supa.authed = w.supa.authed ∧
        w₁.supa.tableExists = w.supa.tableExists ∧
        w₁.supa.insertFail = w.supa.insertFail ∧
        supaRecordCount cfg.userId dt w₁.supa =
          supaRecordCount cfg.userId dt w.supa + l.length ∧
        w.clock ≤ w₁.clock := by
  intro l
  induction l with
  | nil =>
    intro w h1 h2 h3
    exact ⟨w, rfl, rfl, rfl, rfl, rfl, rfl, by simp, le_refl _⟩
  | cons v rest ih =>
    intro w h1 h2 h3
    have hstep := supaStore_insert cfg.userId v dt cfg.encryptionKey w h1 h2 h3
    obtain ⟨w₁, hrun, hb, hd, ha, ht, hi, hc, hcl⟩ :=
      ih ({ w with clock := w.clock + 1,
                   supa := { w.supa with rows := w.supa.rows ++
                     [⟨w.clock, cfg.userId, dt,
                       EncryptionService.encryptData v cfg.encryptionKey,
                       "supabase", w.clock, w.clock⟩] } }) h1 h2 h3
    refine ⟨w₁, ?_, hb, hd, ha, ht, hi, ?_, by simp at hcl; omega⟩
    · simp only [StorageManager.storeDataInSpecificStorage, StorageManager.storeAttempt,
        hstep]
      exact hrun
    · rw [hc]
      simp only [supaRecordCount, SupabaseStorage.selectRows, List.filter_append]
      simp [List.length_cons]
      omega

/-- Copying a list into a ready Cloud File Backend succeeds and adds one
matching file per item; nothing else changes. -/
theorem sdss_googleDrive (cfg : StorageConfig) (dt : String) :
    ∀ (l : List Value) (w : World),
      w.drive.accessToken = true → w.drive.netFail = false →
      ∃ w₁, StorageManager.storeDataInSpecificStorage cfg l dt .googleDrive w =
          (.ok (), w₁) ∧
        w₁.browser = w.browser ∧
        w₁.supa = w.supa ∧
        w₁.drive.accessToken = w.drive.accessToken ∧
        w₁.drive.netFail = w.drive.netFail ∧
        driveRecordCount dt w₁.drive = driveRecordCount dt w.drive + l.length ∧
        w.clock ≤ w₁.clock := by
  intro l
  induction l with
  | nil =>
    intro w h1 h2
    exact ⟨w, rfl, rfl, rfl, rfl, rfl, by simp, le_refl _⟩
  | cons v rest ih =>
    intro w h1 h2
    have hstep := driveStore_insert v dt cfg.encryptionKey w h1 h2
    obtain ⟨w₁, hrun, hb, hs, ha, hn, hc, hcl⟩ :=
      ih ({ w with clock := w.clock + 1,
                   drive := { w.drive with files := w.drive.files ++
                     [⟨w.clock, dt ++ "_" ++ toString w.clock ++ ".encrypted",
                       EncryptionService.encryptData v cfg.encryptionKey⟩] } }) h1 h2
    refine ⟨w₁, ?_, hb, hs, ha, hn, ?_, by simp at hcl; omega⟩
    · simp only [StorageManager.storeDataInSpecificStorage, StorageManager.storeAttempt,
        hstep]
      exact hrun
    · rw [hc]
      have hsw : nameStartsWith (dt ++ "_" ++ toString w.clock ++ ".encrypted") dt = true := by
        rw [String.append_assoc, String.append_assoc]
        exact nameStartsWith_append dt _
      simp [driveRecordCount, List.filter_append, hsw]
      omega

/-- Copying a list into the Local Backend succeeds when identifiers are
fresh and the quota leaves two entries of headroom per item; one record
of the target `(userId, dataType)` is added per item. -/
theorem sdss_local (cfg : StorageConfig) (dt : String) :
    ∀ (l : List Value) (w : World),
      ClockFresh w →
      w.browser.map.length + 2 * l.length ≤ w.browser.quota →
      ∃ w₁, StorageManager.storeDataInSpecificStorage cfg l dt .local w =
          (.ok (), w₁) ∧
        w₁.supa = w.supa ∧
        w₁.drive = w.drive ∧
        w₁.browser.quota = w.browser.quota ∧
        w₁.browser.map.length ≤ w.browser.map.length + 2 * l.length ∧
        localRecordCount cfg.userId dt w₁.browser =
          localRecordCount cfg.userId dt w.browser + l.length ∧
        ClockFresh w₁ ∧
        w.clock ≤ w₁.clock := by
  intro l
  induction l with
  | nil =>
    intro w hfresh hq
    exact ⟨w, rfl, rfl, rfl, rfl, by simp, by simp, hfresh, le_refl _⟩
  | cons v rest ih =>
    intro w hfresh hq
    simp only [List.length_cons] at hq
    obtain ⟨b₁, hstep, hquota, hblen, hcount, hfr⟩ :=
      localStore_insert cfg.userId v dt cfg.encryptionKey w hfresh (by omega)
    have hfresh₁ : ClockFresh { w with clock := w.clock + 1, browser := b₁ } := hfr
    obtain ⟨w₁, hrun, hs, hd, hquota₁, hlen₁, hcount₁, hfresh₂, hcl⟩ :=
      ih ({ w with clock := w.clock + 1, browser := b₁ }) hfresh₁
        (by simp only; rw [hquota]; omega)
    have hcl' : w.clock + 1 ≤ w₁.clock := hcl
    refine ⟨w₁, ?_, hs, hd, ?_, ?_, ?_, hfresh₂, by omega⟩
    · simp only [StorageManager.storeDataInSpecificStorage, StorageManager.storeAttempt,
        hstep]
      exact hrun
    · rw [hquota₁]
      exact hquota
    · have hlen₁' : w₁.browser.map.length ≤ b₁.map.length + 2 * rest.length := hlen₁
      simp only [List.length_cons]
      omega
    · have hcount₁' : localRecordCount cfg.userId dt w₁.browser =
        localRecordCount cfg.userId dt b₁ + rest.length := hcount₁
      have hc' := hcount cfg.userId dt
      rw [if_pos ⟨rfl, rfl⟩] at hc'
      simp only [List.length_cons]
      omega

/-- The non-primary loop of `syncData`: with every backend of the list
ready (and quota headroom for its local members), the copy succeeds and
each backend gains one record per copied item per occurrence in the
list; flags, quota and freshness are preserved, and the browser is
untouched when the list has no local member. -/
theorem syncRest_ready (cfg : StorageConfig) (dt : String) (l : List Value) :
    ∀ (rest : List StorageOption) (w : World),
      (∀ b ∈ rest, StoreReady b w) →
      (rest.count .local ≠ 0 →
        w.browser.map.length + 2 * l.length * rest.count .local ≤ w.browser.quota) →
      ∃ w₁, StorageManager.syncRest cfg l dt rest w = (.ok (), w₁) ∧
        (∀ s₁, backendCount cfg dt s₁ w₁ =
          backendCount cfg dt s₁ w + rest.count s₁ * l.length) ∧
        w₁.browser.quota = w.browser.quota ∧
        w₁.browser.map.length ≤
          w.browser.map.length + 2 * l.length * rest.count .local ∧
        w₁.supa.authed = w.supa.authed ∧
        w₁.supa.tableExists = w.supa.tableExists ∧
        w₁.supa.insertFail = w.supa.insertFail ∧
        w₁.drive.accessToken = w.drive.accessToken ∧
        w₁.drive.netFail = w.drive.netFail ∧
        (ClockFresh w → ClockFresh w₁) ∧
        w.clock ≤ w₁.clock ∧
        (rest.count .local = 0 → w₁.browser = w.browser) ∧
        (rest.count .supabase = 0 → w₁.supa = w.supa) := by
  intro rest
  induction rest with
  | nil =>
    intro w hready hbud
    refine ⟨w, rfl, ?_, rfl, by simp, rfl, rfl, rfl, rfl, rfl, fun h => h,
      le_refl _, fun _ => rfl, fun _ => rfl⟩
    intro s₁
    simp
  | cons b rest ih =>
    intro w hready hbud
    cases b with
    | supabase =>
      have hr : StoreReady .supabase w := hready .supabase (by simp)
      obtain ⟨h1, h2, h3⟩ := hr
      obtain ⟨w', hrun', hb', hd', ha', ht', hi', hc', hcl'⟩ :=
        sdss_supabase cfg dt l w h1 h2 h3
      have hcnt : (StorageOption.supabase :: rest).count .local = rest.count .local := by
        simp [List.count_cons]
      have hfreshp : ClockFresh w → ClockFresh w' := by
        intro hf p hp uid dt₁ id heq
        rw [hb'] at hp
        have := hf p hp uid dt₁ id heq
        omega
      have hready' : ∀ b₁ ∈ rest, StoreReady b₁ w' := by
        intro b₁ hb₁
        have hr₁ := hready b₁ (List.mem_cons_of_mem _ hb₁)
        cases b₁ with
        | supabase => exact ⟨ha'.trans hr₁.1, ht'.trans hr₁.2.1, hi'.trans hr₁.2.2⟩
        | googleDrive => exact ⟨by rw [hd']; exact hr₁.1, by rw [hd']; exact hr₁.2⟩
        | «local» => exact hfreshp hr₁
      have hbud' : rest.count .local ≠ 0 →
          w'.browser.map.length + 2 * l.length * rest.count .local ≤ w'.browser.quota := by
        intro hne
        rw [hb']
        have := hbud (by rw [hcnt]; exact hne)
        rw [hcnt] at this
        exact this
      obtain ⟨w₁, hrun₁, hcount₁, hq₁, hlen₁, ha₁, ht₁, hi₁, hat₁, hn₁, hfp₁, hcl₁,
          hbw₁, hsw₁⟩ := ih w' hready' hbud'
      have hlb : w'.browser.map.length = w.browser.map.length := by rw [hb']
      have hqb : w'.browser.quota = w.browser.quota := by rw [hb']
      refine ⟨w₁, ?_, ?_, by rw [hq₁, hqb], by rw [hcnt]; omega,
        ha₁.trans ha', ht₁.trans ht', hi₁.trans hi',
        hat₁.trans (by rw [hd']), hn₁.trans (by rw [hd']),
        fun hf => hfp₁ (hfreshp hf), le_trans hcl' hcl₁, ?_, ?_⟩
      · simp only [StorageManager.syncRest, hrun']
        exact hrun₁
      · intro s₁
        rw [hcount₁ s₁]
        cases s₁ with
        | supabase =>
          simp only [backendCount, List.count_cons]
          rw [hc']
          simp
          ring
        | googleDrive =>
          simp only [backendCount, List.count_cons]
          rw [hd']
          simp
        | «local» =>
          simp only [backendCount, List.count_cons]
          rw [hb']
          simp
      · intro hz
        rw [hcnt] at hz
        rw [hbw₁ hz, hb']
      · intro hz
        simp [List.count_cons] at hz
    | googleDrive =>
      have hr : StoreReady .googleDrive w := hready .googleDrive (by simp)
      obtain ⟨h1, h2⟩ := hr
      obtain ⟨w', hrun', hb', hs', ha', hn', hc', hcl'⟩ :=
        sdss_googleDrive cfg dt l w h1 h2
      have hcnt : (StorageOption.googleDrive :: rest).count .local = rest.count .local := by
        simp [List.count_cons]
      have hfreshp : ClockFresh w → ClockFresh w' := by
        intro hf p hp uid dt₁ id heq
        rw [hb'] at hp
        have := hf p hp uid dt₁ id heq
        omega
      have hready' : ∀ b₁ ∈ rest, StoreReady b₁ w' := by
        intro b₁ hb₁
        have hr₁ := hready b₁ (List.mem_cons_of_mem _ hb₁)
        cases b₁ with
        | supabase =>
          exact ⟨by rw [hs']; exact hr₁.1, by rw [hs']; exact hr₁.2.1,
            by rw [hs']; exact hr₁.2.2⟩
        | googleDrive => exact ⟨ha'.trans hr₁.1, hn'.trans hr₁.2⟩
        | «local» => exact hfreshp hr₁
      have hbud' : rest.count .local ≠ 0 →
          w'.browser.map.length + 2 * l.length * rest.count .local ≤ w'.browser.quota := by
        intro hne
        rw [hb']
        have := hbud (by rw [hcnt]; exact hne)
        rw [hcnt] at this
        exact this
      obtain ⟨w₁, hrun₁, hcount₁, hq₁, hlen₁, ha₁, ht₁, hi₁, hat₁, hn₁, hfp₁, hcl₁,
          hbw₁, hsw₁⟩ := ih w' hready' hbud'
      have hlb : w'.browser.map.length = w.browser.map.length := by rw [hb']
      have hqb : w'.browser.quota = w.browser.quota := by rw [hb']
      refine ⟨w₁, ?_, ?_, by rw [hq₁, hqb], by rw [hcnt]; omega,
        ha₁.trans (by rw [hs']), ht₁.trans (by rw [hs']), hi₁.trans (by rw [hs']),
        hat₁.trans ha', hn₁.trans hn',
        fun hf => hfp₁ (hfreshp hf), le_trans hcl' hcl₁, ?_, ?_⟩
      · simp only [StorageManager.syncRest, hrun']
        exact hrun₁
      · intro s₁
        rw [hcount₁ s₁]
        cases s₁ with
        | supabase =>
          simp only [backendCount, List.count_cons]
          rw [hs']
          simp
        | googleDrive =>
          simp only [backendCount, List.count_cons]
          rw [hc']
          simp
          ring
        | «local» =>
          simp only [backendCount, List.count_cons]
          rw [hb']
          simp
      · intro hz
        rw [hcnt] at hz
        rw [hbw₁ hz, hb']
      · intro hz
        have hz' : rest.count .supabase = 0 := by
          simpa [List.count_cons] using hz
        rw [hsw₁ hz', hs']
    | «local» =>
      have hr : StoreReady .local w := hready .local (by simp)
      have hcnt : (StorageOption.local :: rest).count .local = rest.count .local + 1 := by
        simp [List.count_cons]
      have hbudh : w.browser.map.length + 2 * l.length * (rest.count .local + 1) ≤
          w.browser.quota := by
        have := hbud (by rw [hcnt]; omega)
        rw [hcnt] at this
        exact this
      obtain ⟨w', hrun', hs', hd', hq', hlen', hc', hfr', hcl'⟩ :=
        sdss_local cfg dt l w hr (by nlinarith [hbudh])
      have hready' : ∀ b₁ ∈ rest, StoreReady b₁ w' := by
        intro b₁ hb₁
        have hr₁ := hready b₁ (List.mem_cons_of_mem _ hb₁)
        cases b₁ with
        | supabase =>
          exact ⟨by rw [hs']; exact hr₁.1, by rw [hs']; exact hr₁.2.1,
            by rw [hs']; exact hr₁.2.2⟩
        | googleDrive => exact ⟨by rw [hd']; exact hr₁.1, by rw [hd']; exact hr₁.2⟩
        | «local» => exact hfr'
      have hbud' : rest.count .local ≠ 0 →
          w'.browser.map.length + 2 * l.length * rest.count .local ≤ w'.browser.quota := by
        intro hne
        rw [hq']
        nlinarith [hlen', hbudh]
      obtain ⟨w₁, hrun₁, hcount₁, hq₁, hlen₁, ha₁, ht₁, hi₁, hat₁, hn₁, hfp₁, hcl₁,
          hbw₁, hsw₁⟩ := ih w' hready' hbud'
      refine ⟨w₁, ?_, ?_, by rw [hq₁, hq'], by rw [hcnt]; nlinarith [hlen₁, hlen'],
        ha₁.trans (by rw [hs']), ht₁.trans (by rw [hs']), hi₁.trans (by rw [hs']),
        hat₁.trans (by rw [hd']), hn₁.trans (by rw [hd']),
        fun _ => hfp₁ hfr', le_trans hcl' hcl₁, ?_, ?_⟩
      · simp only [StorageManager.syncRest, hrun']
        exact hrun₁
      · intro s₁
        rw [hcount₁ s₁]
        cases s₁ with
        | supabase =>
          simp only [backendCount, List.count_cons]
          rw [hs']
          simp
        | googleDrive =>
          simp only [backendCount, List.count_cons]
          rw [hd']
          simp
        | «local» =>
          simp only [backendCount, List.count_cons]
          rw [hc']
          simp
          ring
      · intro hz
        rw [hcnt] at hz
        omega
      · intro hz
        have hz' : rest.count .supabase = 0 := by
          simpa [List.count_cons] using hz
        rw [hsw₁ hz', hs']

/-! ## Toolbox: payload tracking for the opacity invariant -/

theorem mem_localPayloads {m : List (LSKey × StoredVal)} {c : Ciphertext} :
    c ∈ localPayloads m ↔
      ∃ p ∈ m, ∃ it : LocalItem, p.2 = .item it ∧ it.encryptedContent = c := by
  unfold localPayloads
  rw [List.mem_filterMap]
  constructor
  · rintro ⟨p, hp, hf⟩
    cases hv : p.2 with
    | item it =>
      rw [hv] at hf
      simp at hf
      exact ⟨p, hp, it, hv, hf⟩
    | idx l =>
      rw [hv] at hf
      simp at hf
  · rintro ⟨p, hp, it, hv, hc⟩
    exact ⟨p, hp, by rw [hv]; simp [hc]⟩

theorem setItem_mem_payloads {b : Browser} {k : LSKey} {sv : StoredVal}
    {b₁ : Browser} (h : LocalStorage.setItem b k sv = .ok b₁) {c : Ciphertext}
    (hc : c ∈ localPayloads b₁.map) :
    c ∈ localPayloads b.map ∨
      ∃ it : LocalItem, sv = .item it ∧ it.encryptedContent = c := by
  rcases mem_localPayloads.mp hc with ⟨p, hp, it, hv, hcc⟩
  rcases setItem_ok_mem h p hp with hmem | rfl
  · exact Or.inl (mem_localPayloads.mpr ⟨p, hmem, it, hv, hcc⟩)
  · exact Or.inr ⟨it, by simpa using hv, hcc⟩

theorem foldl_removeItem_mem {u : String} :
    ∀ (es : List IndexEntry) (b : Browser) (p : LSKey × StoredVal),
      p ∈ (es.foldl
        (fun acc e => LocalStorage.removeItem acc (.record u e.dataType e.id)) b).map →
      p ∈ b.map := by
  intro es
  induction es with
  | nil => intro b p hp; exact hp
  | cons e rest ih =>
    intro b p hp
    have := ih (LocalStorage.removeItem b (.record u e.dataType e.id)) p hp
    exact (lsRemoveKey_sublist b.map _).subset this

theorem clearOldData_mem_payloads {b : Browser} {u : String} {c : Ciphertext}
    (hc : c ∈ localPayloads (LocalStorage.clearOldData b u).map) :
    c ∈ localPayloads b.map := by
  simp only [LocalStorage.clearOldData] at hc
  rcases mem_localPayloads.mp hc with ⟨p, hp, it, hv, hcc⟩
  split at hp
  · next b₂ hset =>
    rcases setItem_ok_mem hset p hp with hmem | rfl
    · exact mem_localPayloads.mpr ⟨p, foldl_removeItem_mem _ _ _ hmem, it, hv, hcc⟩
    · simp at hv
  · next e hset =>
    exact mem_localPayloads.mpr ⟨p, foldl_removeItem_mem _ _ _ hp, it, hv, hcc⟩

theorem mem_profilesPayloads {ps : List (String × List ProfileEntry)}
    {c : Ciphertext} :
    c ∈ profilesPayloads ps ↔
      ∃ q ∈ ps, ∃ e ∈ q.2, ProfileEntry.encrypted_content e = c := by
  induction ps with
  | nil => simp [profilesPayloads]
  | cons q rest ih =>
    simp only [profilesPayloads, List.foldr_cons] at ih ⊢
    rw [List.mem_append]
    simp only [List.mem_cons]
    constructor
    · rintro (h₁ | h₂)
      · obtain ⟨e, he, hec⟩ := List.mem_map.mp h₁
        exact ⟨q, Or.inl rfl, e, he, hec⟩
      · obtain ⟨q₁, hq₁, e, he, hec⟩ := ih.mp h₂
        exact ⟨q₁, Or.inr hq₁, e, he, hec⟩
    · rintro ⟨q₁, rfl | hq₁, e, he, hec⟩
      · exact Or.inl (List.mem_map.mpr ⟨e, he, hec⟩)
      · exact Or.inr (ih.mpr ⟨q₁, hq₁, e, he, hec⟩)

theorem mem_assocSet {α β : Type} [DecidableEq α] {m : List (α × β)} {k : α}
    {v : β} {p : α × β} (h : p ∈ SupabaseStorage.assocSet m k v) :
    p ∈ m ∨ p = (k, v) := by
  induction m with
  | nil =>
    simp [SupabaseStorage.assocSet] at h
    exact Or.inr h
  | cons q rest ih =>
    obtain ⟨k₁, v₁⟩ := q
    by_cases hk : k₁ = k
    · subst hk
      simp only [SupabaseStorage.assocSet, if_pos rfl] at h
      rcases List.mem_cons.mp h with rfl | hmem
      · exact Or.inr rfl
      · exact Or.inl (List.mem_cons_of_mem _ hmem)
    · simp only [SupabaseStorage.assocSet, if_neg hk] at h
      rcases List.mem_cons.mp h with rfl | hmem
      · exact Or.inl (by simp)
      · rcases ih hmem with hmem₁ | rfl
        · exact Or.inl (List.mem_cons_of_mem _ hmem₁)
        · exact Or.inr rfl

theorem assocGet_some_mem {α β : Type} [DecidableEq α] {m : List (α × β)}
    {k : α} {v : β} (h : SupabaseStorage.assocGet m k = some v) : (k, v) ∈ m := by
  induction m with
  | nil => simp [SupabaseStorage.assocGet] at h
  | cons q rest ih =>
    obtain ⟨k₁, v₁⟩ := q
    by_cases hk : k₁ = k
    · subst hk
      simp [SupabaseStorage.assocGet] at h
      simp [h]
    · simp [SupabaseStorage.assocGet, hk] at h
      exact List.mem_cons_of_mem _ (ih h)

theorem mem_profilesPayloads_assocSet
    {ps : List (String × List ProfileEntry)} {u : String} {e : ProfileEntry}
    {c : Ciphertext}
    (hc : c ∈ profilesPayloads
      (SupabaseStorage.assocSet ps u ((SupabaseStorage.assocGet ps u).getD [] ++ [e]))) :
    c ∈ profilesPayloads ps ∨ c = e.encrypted_content := by
  obtain ⟨q, hq, e₁, he₁, hec⟩ := mem_profilesPayloads.mp hc
  rcases mem_assocSet hq with hmem | rfl
  · exact Or.inl (mem_profilesPayloads.mpr ⟨q, hmem, e₁, he₁, hec⟩)
  · rcases List.mem_append.mp he₁ with hes | hin
    · cases hg : SupabaseStorage.assocGet ps u with
      | none =>
        rw [hg] at hes
        simp at hes
      | some l =>
        rw [hg] at hes
        simp at hes
        exact Or.inl (mem_profilesPayloads.mpr ⟨(u, l), assocGet_some_mem hg, e₁, hes, hec⟩)
    · simp at hin
      subst hin
      exact Or.inr hec.symm

theorem decryptRows_ok_mem {k : Key} :
    ∀ {rows : List SupaRow} {vs : List Value},
      SupabaseStorage.decryptRows k rows = .ok vs →
      ∀ x ∈ vs, ∃ r ∈ rows,
        EncryptionService.decryptData r.encrypted_content k = .ok x := by
  intro rows
  induction rows with
  | nil =>
    intro vs h x hx
    simp [SupabaseStorage.decryptRows] at h
    subst h
    simp at hx
  | cons r rest ih =>
    intro vs h x hx
    simp only [SupabaseStorage.decryptRows] at h
    cases hd : EncryptionService.decryptData r.encrypted_content k with
    | error e =>
      rw [hd] at h
      simp at h
    | ok v =>
      rw [hd] at h
      cases hrest : SupabaseStorage.decryptRows k rest with
      | error e =>
        rw [hrest] at h
        simp at h
      | ok vs₁ =>
        rw [hrest] at h
        simp at h
        subst h
        rcases List.mem_cons.mp hx with rfl | hx₁
        · exact ⟨r, by simp, hd⟩
        · obtain ⟨r₁, hr₁, hd₁⟩ := ih hrest x hx₁
          exact ⟨r₁, by simp [hr₁], hd₁⟩

theorem supaRetrieve_ok_mem {u dt : String} {k : Key} {s : SupaState}
    {vs : List Value}
    (h : SupabaseStorage.retrieveEncryptedData u dt k s = .ok vs) :
    ∀ x ∈ vs, ∃ r ∈ s.rows,
      EncryptionService.decryptData r.encrypted_content k = .ok x := by
  unfold SupabaseStorage.retrieveEncryptedData at h
  split at h
  · simp at h
  · split at h
    · simp at h
    · next vs₁ hrows =>
      simp at h
      subst h
      intro x hx
      obtain ⟨r, hr, hd⟩ := decryptRows_ok_mem hrows x hx
      exact ⟨r, List.mem_of_mem_filter hr, hd⟩

theorem driveRetrieve_ok {fid : Nat} {k : Key} {d : DriveState} {v : Value}
    (h : GoogleDriveStorage.retrieveEncryptedData fid k d = .ok v) :
    ∃ f ∈ d.files, EncryptionService.decryptData f.content k = .ok v := by
  unfold GoogleDriveStorage.retrieveEncryptedData at h
  split at h
  · simp at h
  · split at h
    · simp at h
    · split at h
      · simp at h
      · next f hfind =>
        exact ⟨f, List.mem_of_find?_eq_some hfind, h⟩

theorem driveFetchAll_ok_mem {k : Key} {d : DriveState} :
    ∀ {files : List DriveFile} {vs : List Value},
      StorageManager.driveFetchAll k d files = .ok vs →
      ∀ x ∈ vs, ∃ f ∈ d.files,
        EncryptionService.decryptData f.content k = .ok x := by
  intro files
  induction files with
  | nil =>
    intro vs h x hx
    simp [StorageManager.driveFetchAll] at h
    subst h
    simp at hx
  | cons f rest ih =>
    intro vs h x hx
    simp only [StorageManager.driveFetchAll] at h
    cases hd : GoogleDriveStorage.retrieveEncryptedData f.id k d with
    | error e =>
      rw [hd] at h
      simp at h
    | ok v =>
      rw [hd] at h
      cases hrest : StorageManager.driveFetchAll k d rest with
      | error e =>
        rw [hrest] at h
        simp at h
      | ok vs₁ =>
        rw [hrest] at h
        simp at h
        subst h
        rcases List.mem_cons.mp hx with rfl | hx₁
        · exact driveRetrieve_ok hd
        · exact ih hrest x hx₁

theorem retrieveGo_ok_mem {b : Browser} {u dt : String} {k : Key} :
    ∀ {es : List IndexEntry} {vs : List Value},
      LocalStorage.retrieveGo b u dt k es = .ok vs →
      ∀ x ∈ vs, ∃ it : LocalItem, (∃ p ∈ b.map, p.2 = StoredVal.item it) ∧
        EncryptionService.decryptData it.encryptedContent k = .ok x := by
  intro es
  induction es with
  | nil =>
    intro vs h x hx
    simp [LocalStorage.retrieveGo] at h
    subst h
    simp at hx
  | cons e rest ih =>
    intro vs h x hx
    simp only [LocalStorage.retrieveGo] at h
    cases hg : LocalStorage.lsGet b.map (.record u dt e.id) with
    | none =>
      simp only [hg] at h
      exact ih h x hx
    | some sv =>
      cases sv with
      | idx l => simp [hg] at h
      | item it =>
        simp only [hg] at h
        cases hd : EncryptionService.decryptData it.encryptedContent k with
        | error e₁ =>
          simp [hd] at h
        | ok v =>
          simp only [hd] at h
          cases hrest : LocalStorage.retrieveGo b u dt k rest with
          | error e₂ =>
            simp [hrest] at h
          | ok vs₁ =>
            simp only [hrest] at h
            simp at h
            subst h
            rcases List.mem_cons.mp hx with rfl | hx₁
            · exact ⟨it, ⟨_, lsGet_some_mem hg, rfl⟩, hd⟩
            · exact ih hrest x hx₁

/-! ## C1: priority-order failover of `retrieveData` -/

/-- The loop of `retrieveData` satisfies the failover contract, for any
already-accumulated trace and error list. -/
theorem retrieveGo_failover (cfg : StorageConfig) (dataType : String) (w : World) :
    ∀ (l : List StorageOption) (trace : List StorageOption) (errors : List String),
      (∃ pre b post,
        l = pre ++ b :: post ∧
        (∀ s ∈ pre, ∃ e, StorageManager.retrieveAttempt cfg dataType s w = .error e) ∧
        (∃ vs, StorageManager.retrieveAttempt cfg dataType b w = .ok vs ∧
          StorageManager.retrieveGo cfg dataType w l trace errors =
            (trace ++ (pre ++ [b]), .ok vs))) ∨
      ((∀ s ∈ l, ∃ e, StorageManager.retrieveAttempt cfg dataType s w = .error e) ∧
        (∃ errs, StorageManager.retrieveGo cfg dataType w l trace errors =
            (trace ++ l, .error errs) ∧
          errs.length = errors.length + l.length)) := by
  intro l
  induction l with
  | nil =>
    intro trace errors
    right
    exact ⟨by simp, errors, by simp [StorageManager.retrieveGo], by simp⟩
  | cons s rest ih =>
    intro trace errors
    cases h : StorageManager.retrieveAttempt cfg dataType s w with
    | ok vs =>
      left
      exact ⟨[], s, rest, rfl, by simp, vs, h, by simp [StorageManager.retrieveGo, h]⟩
    | error e =>
      rcases ih (trace ++ [s]) (errors ++ [s.label ++ ": " ++ e]) with
        ⟨pre, b, post, hl, hpre, vs, hb, hres⟩ | ⟨hall, errs, hres, hlen⟩
      · left
        refine ⟨s :: pre, b, post, by rw [hl]; rfl, ?_, vs, hb, ?_⟩
        · intro s₁ hs₁
          rcases List.mem_cons.mp hs₁ with rfl | hs₁
          · exact ⟨e, h⟩
          · exact hpre s₁ hs₁
        · simpa [StorageManager.retrieveGo, h] using hres
      · right
        refine ⟨?_, errs, ?_, ?_⟩
        · intro s₁ hs₁
          rcases List.mem_cons.mp hs₁ with rfl | hs₁
          · exact ⟨e, h⟩
          · exact hall s₁ hs₁
        · simpa [StorageManager.retrieveGo, h] using hres
        · rw [hlen]; simp; omega

/-- C1: for every configuration with a non-empty enabled list,
`retrieveData` attempts backends strictly in configured order, returns
the first successful backend's result (an empty list counts as success),
attempts nothing after the first success, and throws the aggregated
error (one sub-error per backend) exactly when every backend fails. -/
theorem retrieveData_failover (cfg : StorageConfig) (dataType : String) (w : World)
    (h : cfg.enabledStorages ≠ []) : FailoverSpec cfg dataType w := by
  have := retrieveGo_failover cfg dataType w cfg.enabledStorages [] []
  unfold FailoverSpec
  simpa [StorageManager.retrieveData] using this

/-- C1 witness: `[supabase, google-drive, local]` with Supabase failing
and Google Drive succeeding with an empty folder — the spec applies and
(by the contract) the call stops at Google Drive with `ok []`. -/
theorem retrieveData_failover_witness :
    (StorageConfig.mk "u" "k1" [.supabase, .googleDrive, .local]).enabledStorages ≠ [] ∧
    FailoverSpec ⟨"u", "k1", [.supabase, .googleDrive, .local]⟩ "medicines" failoverWorld :=
  ⟨by decide, retrieveData_failover _ _ _ (by decide)⟩

/-! ## C2: fan-out semantics of `storeData` -/

/-- Setting a key makes it present; other keys are untouched. -/
theorem assocGet_assocSet_isSome {α β : Type} [DecidableEq α]
    (m : List (α × β)) (k k' : α) (v : β) :
    (SupabaseStorage.assocGet (SupabaseStorage.assocSet m k v) k').isSome ↔
      (k' = k ∨ (SupabaseStorage.assocGet m k').isSome) := by
  induction m with
  | nil =>
    by_cases hk : k = k'
    · subst hk
      simp [SupabaseStorage.assocSet, SupabaseStorage.assocGet]
    · have hk' : ¬ k' = k := fun hh => hk hh.symm
      simp [SupabaseStorage.assocSet, SupabaseStorage.assocGet, hk, hk']
  | cons p rest ih =>
    obtain ⟨k₁, v₁⟩ := p
    simp only [SupabaseStorage.assocSet]
    by_cases h₁ : k₁ = k
    · subst h₁
      simp only [if_pos rfl]
      by_cases h₂ : k₁ = k'
      · subst h₂
        simp [SupabaseStorage.assocGet]
      · have h₂' : ¬ k' = k₁ := fun hh => h₂ hh.symm
        simp [SupabaseStorage.assocGet, h₂, h₂']
    · simp only [if_neg h₁]
      by_cases h₂ : k₁ = k'
      · subst h₂
        simp [SupabaseStorage.assocGet]
      · simp only [SupabaseStorage.assocGet, if_neg h₂]
        exact ih

/-- A filter keeps everything exactly when every element satisfies the
predicate. -/
theorem filter_length_eq_length {α : Type} (p : α → Bool) (l : List α) :
    (l.filter p).length = l.length ↔ ∀ a ∈ l, p a := by
  induction l with
  | nil => simp
  | cons a rest ih =>
    by_cases h : p a
    · simp [h, ih]
    · simp only [List.filter_cons, h, if_neg]
      constructor
      · intro hlen
        have := List.length_filter_le p rest
        simp at hlen
        omega
      · intro hall
        exact absurd (hall a (by simp)) (by simp [h])

/-- The loop of `storeData`: it attempts every backend of the remaining
list in order, accumulates one error message per failed attempt, and the
result map gains exactly the keys of the successful attempts. -/
theorem storeGo_spec (cfg : StorageConfig) (data : Value) (dataType : String) :
    ∀ (l : List StorageOption) (outs : List (StorageOption × Option Nat))
      (results : List (StorageOption × Nat)) (errors : List String) (w : World),
      ∃ (outs₁ : List (StorageOption × Option Nat))
        (results₁ : List (StorageOption × Nat)) (errors₁ : List String) (w₁ : World),
        StorageManager.storeGo cfg data dataType l outs results errors w =
          (outs ++ outs₁, results₁, errors₁, w₁) ∧
        outs₁.map Prod.fst = l ∧
        errors₁.length = errors.length + (outs₁.filter (fun o => o.2.isNone)).length ∧
        (∀ s : StorageOption, (SupabaseStorage.assocGet results₁ s).isSome ↔
          ((SupabaseStorage.assocGet results s).isSome ∨ ∃ id, (s, some id) ∈ outs₁)) := by
  intro l
  induction l with
  | nil =>
    intro outs results errors w
    exact ⟨[], results, errors, w, by simp [StorageManager.storeGo], by simp, by simp,
      by simp⟩
  | cons s rest ih =>
    intro outs results errors w
    cases h : StorageManager.storeAttempt cfg data dataType s w with
    | mk r w₁ =>
      cases r with
      | ok id =>
        obtain ⟨outs₁, results₁, errors₁, w₂, heq, hmap, hlen, hdom⟩ :=
          ih (outs ++ [(s, some id)]) (SupabaseStorage.assocSet results s id) errors w₁
        refine ⟨(s, some id) :: outs₁, results₁, errors₁, w₂, ?_, by simp [hmap], ?_, ?_⟩
        · simp only [StorageManager.storeGo, h]
          simpa using heq
        · simpa using hlen
        · intro s₁
          rw [hdom s₁, assocGet_assocSet_isSome]
          constructor
          · rintro ((hs | hget) | ⟨id₁, hid₁⟩)
            · exact Or.inr ⟨id, by simp [hs]⟩
            · exact Or.inl hget
            · exact Or.inr ⟨id₁, by simp [hid₁]⟩
          · rintro (hget | ⟨id₁, hid₁⟩)
            · exact Or.inl (Or.inr hget)
            · rcases List.mem_cons.mp hid₁ with heq₁ | hmem
              · exact Or.inl (Or.inl (congrArg Prod.fst heq₁))
              · exact Or.inr ⟨id₁, hmem⟩
      | error e =>
        obtain ⟨outs₁, results₁, errors₁, w₂, heq, hmap, hlen, hdom⟩ :=
          ih (outs ++ [(s, none)]) results (errors ++ [s.label ++ ": " ++ e]) w₁
        refine ⟨(s, none) :: outs₁, results₁, errors₁, w₂, ?_, by simp [hmap], ?_, ?_⟩
        · simp only [StorageManager.storeGo, h]
          simpa using heq
        · simp only [List.filter_cons, Option.isNone_none, if_true, List.length_cons]
          simp at hlen
          omega
        · intro s₁
          rw [hdom s₁]
          simp

/-- C2 amended: for a non-empty enabled list, `storeData` attempts a
store on every enabled backend, throws exactly when all attempts fail
(with one sub-error per backend), and on partial success returns the map
of the backends that persisted the data — without per-backend failure
detail for the rest. -/
theorem storeData_fanout (cfg : StorageConfig) (data : Value) (dataType : String)
    (w : World) (h : cfg.enabledStorages ≠ []) :
    StoreFanoutSpec cfg data dataType w := by
  obtain ⟨outs₁, results₁, errors₁, w₁, heq, hmap, hlen, hdom⟩ :=
    storeGo_spec cfg data dataType cfg.enabledStorages [] [] [] w
  simp only [List.nil_append] at heq
  have houts : outs₁.length = cfg.enabledStorages.length := by
    rw [← hmap]; simp
  simp only [List.length_nil, Nat.zero_add] at hlen
  by_cases hcond : errors₁.length = cfg.enabledStorages.length
  · have hsd : StorageManager.storeData cfg data dataType w =
        (outs₁, .error errors₁, w₁) := by
      unfold StorageManager.storeData
      rw [heq]
      simp [hcond]
    have hall : ∀ o ∈ outs₁, o.2.isNone := by
      rw [← filter_length_eq_length]
      omega
    refine ⟨by simp only [hsd]; exact hmap, ?_, ?_⟩
    · intro errs herrs
      simp only [hsd] at herrs
      simp at herrs
      subst herrs
      refine ⟨hcond, ?_⟩
      simp only [hsd]
      exact fun o ho => Option.isNone_iff_eq_none.mp (hall o ho)
    · intro m hm
      simp [hsd] at hm
  · have hsd : StorageManager.storeData cfg data dataType w =
        (outs₁, .ok results₁, w₁) := by
      unfold StorageManager.storeData
      rw [heq]
      simp [hcond]
    have hex : ∃ o ∈ outs₁, ¬ o.2.isNone := by
      by_contra hno
      push_neg at hno
      have hfl := (filter_length_eq_length (fun o => o.2.isNone) outs₁).mpr hno
      omega
    obtain ⟨o, ho, hnone⟩ := hex
    refine ⟨by simp only [hsd]; exact hmap, ?_, ?_⟩
    · intro errs herrs
      simp [hsd] at herrs
    · intro m hm
      simp only [hsd] at hm
      simp at hm
      subst hm
      simp only [hsd]
      refine ⟨⟨o, ho, by simpa [Option.isNone_iff_eq_none] using hnone⟩, ?_⟩
      intro s
      rw [hdom s]
      simp [SupabaseStorage.assocGet]

/-- C2 witness: Local healthy, Supabase unauthenticated — the fan-out
contract applies to a concrete partial-failure run. -/
theorem storeData_fanout_witness :
    (StorageConfig.mk "u" "k1" [.local, .supabase]).enabledStorages ≠ [] ∧
    StoreFanoutSpec ⟨"u", "k1", [.local, .supabase]⟩ sampleValue "medicines"
      partialWorld :=
  ⟨by decide, storeData_fanout _ _ _ _ (by decide)⟩

/-! ## C5: encryption round trip -/

/-- C5: for every serializable value `v` and key `k`, decrypting the
encryption of `v` under `k` with the same `k` yields `v`:
`decryptData(encryptData(v, k), k) == v`. -/
theorem encryptData_decryptData_roundtrip (v : Value) (k : Key) :
    EncryptionService.decryptData (EncryptionService.encryptData v k) k = .ok v := by
  simp [EncryptionService.encryptData, EncryptionService.decryptData]

/-! ## C10: `storeData` with no enabled backends -/

/-- C10: with an empty enabled-backend list, `storeData` attempts
nothing and unconditionally throws the `All storage options failed`
aggregated error carrying zero sub-errors (the error count 0 equals the
backend count 0). -/
theorem storeData_no_backends_empty_aggregate (userId : String) (k : Key)
    (data : Value) (dataType : String) (w : World) :
    StorageManager.storeData ⟨userId, k, []⟩ data dataType w = ([], .error [], w) := rfl

/-! ## C8: empty configuration is not a distinct programming error -/

/-- C8 counterexample: with no enabled backends, `retrieveData` throws
the same `All storage options failed` aggregated error (with zero
sub-errors) as a total backend failure, and `syncData` does not fail at
all — neither raises a programming error distinguishable from a
backend-failure error. -/
theorem empty_config_not_distinguished :
    StorageManager.retrieveData ⟨"u", "k1", []⟩ "medicines" sampleWorld = ([], .error []) ∧
    StorageManager.syncData ⟨"u", "k1", []⟩ "medicines" sampleWorld = (.ok (), sampleWorld) :=
  ⟨rfl, rfl⟩

/-- C8 amended: with no enabled backends, `retrieveData` throws the
aggregated `All storage options failed` error with zero sub-errors (the
same error shape as a total backend failure), and `syncData` returns
successfully without doing anything. -/
theorem empty_config_behavior (userId : String) (k : Key) (dataType : String)
    (w : World) :
    StorageManager.retrieveData ⟨userId, k, []⟩ dataType w = ([], .error []) ∧
    StorageManager.syncData ⟨userId, k, []⟩ dataType w = (.ok (), w) :=
  ⟨rfl, rfl⟩

/-! ## C9 (counterexample part): a store can orphan a record -/

/-- C9 counterexample: with a quota of one entry, a store writes the
record successfully and then fails to write the index entry
(`QuotaExceededError` inside `updateIndex`); the failed store leaves the
record physically present while the user's index is empty — the index
misses a record, and the index count 0 differs from the one physically
present record. -/
theorem local_store_orphans_record :
    (LocalStorage.storeEncryptedData "u" sampleValue "medicines" sampleKey quotaOneWorld).1 =
      .error "Failed to store data locally: QuotaExceededError" ∧
    LocalStorage.lsGet
      (LocalStorage.storeEncryptedData "u" sampleValue "medicines" sampleKey quotaOneWorld).2.browser.map
      (.record "u" "medicines" 0) =
      some (.item ⟨0, "u", "medicines",
        EncryptionService.encryptData sampleValue sampleKey, "local", 0, 0⟩) ∧
    LocalStorage.getIndex
      (LocalStorage.storeEncryptedData "u" sampleValue "medicines" sampleKey quotaOneWorld).2.browser
      "u" = [] ∧
    localRecordCount "u" "medicines"
      (LocalStorage.storeEncryptedData "u" sampleValue "medicines" sampleKey quotaOneWorld).2.browser = 1 :=
  ⟨rfl, rfl, rfl, rfl⟩

/-! ## C7 (counterexample part): Supabase update of a missing record -/

/-- C7 counterexample: the Relational Backend's update of an id that
matches no row returns success (zero rows updated, no `NotFoundError`)
and leaves the world unchanged, while the claim demands a not-found
failure on every backend variant. -/
theorem supabase_update_missing_record_succeeds :
    sampleWorld.supa.rows = [] ∧
    SupabaseStorage.updateEncryptedData 5 sampleValue sampleKey sampleWorld =
      (.ok (), sampleWorld) :=
  ⟨rfl, rfl⟩

/-! ## C2 (counterexample part): partial success drops failure detail -/

/-- C2 counterexample: with Local healthy and Supabase failing, the
fan-out records one success and one failure, but the value returned to
the caller is `{local: id}` alone — the failed backend's error detail is
not part of the returned result (the result type has no error field). -/
theorem storeData_partial_success_drops_failures :
    (StorageManager.storeData ⟨"u", "k1", [.local, .supabase]⟩ sampleValue "medicines"
        partialWorld).1 = [(.local, some 0), (.supabase, none)] ∧
    (StorageManager.storeData ⟨"u", "k1", [.local, .supabase]⟩ sampleValue "medicines"
        partialWorld).2.1 = .ok [(.local, 0)] :=
  ⟨rfl, rfl⟩

/-! ## C3 (counterexample part): a Google Drive primary syncs nothing -/

/-- C3 counterexample: with Google Drive first and holding one
retrievable `medicines` record, `syncData` returns success without
reading anything and without writing anything to the other enabled
backend — the world is unchanged (the primary `switch` has no
`google-drive` case). -/
theorem syncData_drive_primary_copies_nothing :
    StorageManager.retrieveAttempt ⟨"u", "k1", [.googleDrive, .local]⟩ "medicines"
      .googleDrive driveFileWorld = .ok [sampleValue] ∧
    StorageManager.syncData ⟨"u", "k1", [.googleDrive, .local]⟩ "medicines"
      driveFileWorld = (.ok (), driveFileWorld) :=
  ⟨rfl, rfl⟩

/-! ## C4 (counterexample part): duplication fails for a Drive primary -/

/-- C4 counterexample: Google Drive primary holding `n = 1` record,
Local second and starting empty; after calling `syncData` twice the
second backend holds `0` records, not `2n = 2` (nothing is ever read
from a `google-drive` primary). -/
theorem syncData_twice_drive_primary_no_duplication :
    driveRecordCount "medicines" driveFileWorld.drive = 1 ∧
    StorageManager.retrieveAttempt ⟨"u", "k1", [.googleDrive, .local]⟩ "medicines"
      .googleDrive driveFileWorld = .ok [sampleValue] ∧
    backendCount ⟨"u", "k1", [.googleDrive, .local]⟩ "medicines" .local
      (StorageManager.syncData ⟨"u", "k1", [.googleDrive, .local]⟩ "medicines"
        (StorageManager.syncData ⟨"u", "k1", [.googleDrive, .local]⟩ "medicines"
          driveFileWorld).2).2 = 0 :=
  ⟨rfl, rfl, rfl⟩

/-! ## C3 (amended theorem): what `syncData` reads and copies -/

/-- C3 amended: `syncData` reads the primary's records through the
primary-`switch` (`retrieve` for a Supabase or Local primary; nothing —
the empty list — for a Google Drive primary, which has no case) and, when
the copies succeed, appends every read record via `store` to every other
enabled backend: each backend of the tail gains exactly one record per
read record per occurrence. -/
theorem syncData_copies_primary (cfg : StorageConfig) (dt : String) (w : World)
    (primary : StorageOption) (rest : List StorageOption) (l : List Value)
    (hcfg : cfg.enabledStorages = primary :: rest)
    (hprim : StorageManager.primaryRead cfg dt w primary = .ok l)
    (hready : ∀ b ∈ rest, StoreReady b w)
    (hbud : rest.count .local ≠ 0 →
      w.browser.map.length + 2 * l.length * rest.count .local ≤ w.browser.quota) :
    ∃ w₁, StorageManager.syncData cfg dt w = (.ok (), w₁) ∧
      ∀ s₁, backendCount cfg dt s₁ w₁ =
        backendCount cfg dt s₁ w + rest.count s₁ * l.length := by
  obtain ⟨w₁, hrun, hcount, -, -, -, -, -, -, -, -, -, -, -⟩ :=
    syncRest_ready cfg dt l rest w hready hbud
  refine ⟨w₁, ?_, hcount⟩
  simp [StorageManager.syncData, hcfg, hprim, hrun]

/-- C3 witness: a Local primary holding one `medicines` record, one
ready Supabase backend behind it — the copy succeeds and Supabase gains
one record. -/
theorem syncData_copies_primary_witness :
    (StorageConfig.mk "u" "k1" [.local, .supabase]).enabledStorages =
      .local :: [.supabase] ∧
    StorageManager.primaryRead ⟨"u", "k1", [.local, .supabase]⟩ "medicines"
      syncSourceWorld .local = .ok [sampleValue] ∧
    (∀ b ∈ [StorageOption.supabase], StoreReady b syncSourceWorld) ∧
    (∃ w₁, StorageManager.syncData ⟨"u", "k1", [.local, .supabase]⟩ "medicines"
        syncSourceWorld = (.ok (), w₁) ∧
      ∀ s₁, backendCount ⟨"u", "k1", [.local, .supabase]⟩ "medicines" s₁ w₁ =
        backendCount ⟨"u", "k1", [.local, .supabase]⟩ "medicines" s₁ syncSourceWorld +
          [StorageOption.supabase].count s₁ * [sampleValue].length) := by
  have hready : ∀ b ∈ [StorageOption.supabase], StoreReady b syncSourceWorld := by
    intro b hb
    simp only [List.mem_singleton] at hb
    subst hb
    exact ⟨rfl, rfl, rfl⟩
  exact ⟨rfl, rfl, hready,
    syncData_copies_primary _ "medicines" syncSourceWorld .local [.supabase]
      [sampleValue] rfl rfl hready
      (fun h => absurd (by decide) h)⟩

/-! ## C4 (amended theorem): sync duplication for a read primary -/

/-- C4 amended: with a primary the sync switch can read (Local or
Relational), a successful read of its records, and any distinct ready
second backend starting empty (with quota headroom for both copies when
that second backend is Local), calling `syncData` twice appends the read
records twice: the second backend ends with `2n` records (append-only
copying, no deduplication).  (For a Google Drive primary nothing is
read, so nothing accumulates — see the counterexample.) -/
theorem syncData_twice_duplicates (cfg : StorageConfig) (dt : String) (w : World)
    (primary second : StorageOption) (l : List Value)
    (hcfg : cfg.enabledStorages = [primary, second])
    (hp : primary = StorageOption.local ∨ primary = StorageOption.supabase)
    (hne : second ≠ primary)
    (hprim : StorageManager.primaryRead cfg dt w primary = .ok l)
    (hready : StoreReady second w)
    (hbud : second = StorageOption.local →
      w.browser.map.length + 4 * l.length ≤ w.browser.quota)
    (hempty : backendCount cfg dt second w = 0) :
    ∃ w₂, (StorageManager.syncData cfg dt w).1 = .ok () ∧
      StorageManager.syncData cfg dt (StorageManager.syncData cfg dt w).2 =
        (.ok (), w₂) ∧
      backendCount cfg dt second w₂ = 2 * l.length := by
  have hready₁ : ∀ b ∈ [second], StoreReady b w := by
    intro b hb
    simp only [List.mem_singleton] at hb
    subst hb
    exact hready
  have hbud₁ : [second].count StorageOption.local ≠ 0 →
      w.browser.map.length + 2 * l.length * [second].count StorageOption.local ≤
        w.browser.quota := by
    intro hnz
    have hsl : second = StorageOption.local := by
      cases second with
      | «local» => rfl
      | supabase => exact absurd (by decide) hnz
      | googleDrive => exact absurd (by decide) hnz
    subst hsl
    have hone : [StorageOption.local].count StorageOption.local = 1 := by decide
    rw [hone]
    have := hbud rfl
    omega
  obtain ⟨w₁, hrun₁, hcount₁, hq₁, hlen₁, ha₁, ht₁, hi₁, hat₁, hn₁, hfp₁, hcl₁,
      hbw₁, hsw₁⟩ := syncRest_ready cfg dt l [second] w hready₁ hbud₁
  have hsync₁ : StorageManager.syncData cfg dt w = (.ok (), w₁) := by
    simp [StorageManager.syncData, hcfg, hprim, hrun₁]
  have hprim₂ : StorageManager.primaryRead cfg dt w₁ primary = .ok l := by
    rcases hp with rfl | rfl
    · have hz : [second].count StorageOption.local = 0 := by
        cases second with
        | «local» => exact absurd rfl hne
        | supabase => decide
        | googleDrive => decide
      have hb := hbw₁ hz
      simp only [StorageManager.primaryRead] at hprim ⊢
      rw [hb]
      exact hprim
    · have hz : [second].count StorageOption.supabase = 0 := by
        cases second with
        | supabase => exact absurd rfl hne
        | «local» => decide
        | googleDrive => decide
      have hs := hsw₁ hz
      simp only [StorageManager.primaryRead] at hprim ⊢
      rw [hs]
      exact hprim
  have hready₂ : ∀ b ∈ [second], StoreReady b w₁ := by
    intro b hb
    simp only [List.mem_singleton] at hb
    subst hb
    cases b with
    | supabase =>
      obtain ⟨h1, h2, h3⟩ := hready
      exact ⟨ha₁.trans h1, ht₁.trans h2, hi₁.trans h3⟩
    | googleDrive =>
      obtain ⟨h1, h2⟩ := hready
      exact ⟨hat₁.trans h1, hn₁.trans h2⟩
    | «local» => exact hfp₁ hready
  have hbud₂ : [second].count StorageOption.local ≠ 0 →
      w₁.browser.map.length + 2 * l.length * [second].count StorageOption.local ≤
        w₁.browser.quota := by
    intro hnz
    have hsl : second = StorageOption.local := by
      cases second with
      | «local» => rfl
      | supabase => exact absurd (by decide) hnz
      | googleDrive => exact absurd (by decide) hnz
    subst hsl
    have hone : [StorageOption.local].count StorageOption.local = 1 := by decide
    rw [hone] at hlen₁ ⊢
    simp only [Nat.mul_one] at hlen₁ ⊢
    rw [hq₁]
    have := hbud rfl
    omega
  obtain ⟨w₂, hrun₂, hcount₂, -, -, -, -, -, -, -, -, -, -, -⟩ :=
    syncRest_ready cfg dt l [second] w₁ hready₂ hbud₂
  have hsync₂ : StorageManager.syncData cfg dt w₁ = (.ok (), w₂) := by
    simp [StorageManager.syncData, hcfg, hprim₂, hrun₂]
  refine ⟨w₂, by rw [hsync₁], by rw [hsync₁]; exact hsync₂, ?_⟩
  have hone : [second].count second = 1 := by
    cases second <;> decide
  have hc₁ := hcount₁ second
  have hc₂ := hcount₂ second
  rw [hone] at hc₁ hc₂
  rw [hc₂, hc₁, hempty]
  omega

/-! ## C6: ciphertext opacity -/

theorem mem_persistedPayloads {w : World} {c : Ciphertext} :
    c ∈ persistedPayloads w ↔
      (c ∈ drivePayloads w.drive ∨ c ∈ supaPayloads w.supa ∨
        c ∈ localPayloads w.browser.map) := by
  simp [persistedPayloads, List.mem_append, or_assoc]

/-- A Cloud File store only leaves behind previously persisted payloads
or the encryption of the written value; the other backends are
untouched. -/
theorem driveStore_world (v : Value) (dt : String) (k : Key) (w : World) :
    (GoogleDriveStorage.storeEncryptedData v dt k w).2.browser = w.browser ∧
    (GoogleDriveStorage.storeEncryptedData v dt k w).2.supa = w.supa ∧
    ∀ c ∈ drivePayloads (GoogleDriveStorage.storeEncryptedData v dt k w).2.drive,
      c ∈ drivePayloads w.drive ∨ c = EncryptionService.encryptData v k := by
  unfold GoogleDriveStorage.storeEncryptedData
  split
  · exact ⟨rfl, rfl, fun c hc => Or.inl hc⟩
  · split
    · exact ⟨rfl, rfl, fun c hc => Or.inl hc⟩
    · refine ⟨rfl, rfl, ?_⟩
      intro c hc
      simp only [drivePayloads, List.map_append] at hc
      rcases List.mem_append.mp hc with h₁ | h₂
      · exact Or.inl h₁
      · simp at h₂
        exact Or.inr h₂

/-- The profiles-table fallback only adds the given ciphertext to the
profiles documents; rows and the other backends are untouched. -/
theorem storeInProfiles_spec (u dt : String) (ec : Ciphertext) (w : World) :
    (SupabaseStorage.storeInProfilesTable u dt ec w).2.drive = w.drive ∧
    (SupabaseStorage.storeInProfilesTable u dt ec w).2.browser = w.browser ∧
    (SupabaseStorage.storeInProfilesTable u dt ec w).2.supa.rows = w.supa.rows ∧
    ∀ c ∈ profilesPayloads
        (SupabaseStorage.storeInProfilesTable u dt ec w).2.supa.profiles,
      c ∈ profilesPayloads w.supa.profiles ∨ c = ec := by
  unfold SupabaseStorage.storeInProfilesTable
  split
  · exact ⟨rfl, rfl, rfl, fun c hc => Or.inl hc⟩
  · refine ⟨rfl, rfl, rfl, ?_⟩
    intro c hc
    exact mem_profilesPayloads_assocSet hc

/-- A Relational store (insert or profiles fallback) only leaves behind
previously persisted payloads or the encryption of the written value;
the other backends are untouched. -/
theorem supaStore_world (u : String) (v : Value) (dt : String) (k : Key)
    (w : World) :
    (SupabaseStorage.storeEncryptedData u v dt k w).2.drive = w.drive ∧
    (SupabaseStorage.storeEncryptedData u v dt k w).2.browser = w.browser ∧
    ∀ c ∈ supaPayloads (SupabaseStorage.storeEncryptedData u v dt k w).2.supa,
      c ∈ supaPayloads w.supa ∨ c = EncryptionService.encryptData v k := by
  simp only [SupabaseStorage.storeEncryptedData]
  split
  · exact ⟨rfl, rfl, fun c hc => Or.inl hc⟩
  · split
    · -- profiles fallback (table missing and RPC failed)
      obtain ⟨hd, hb, hr, hp⟩ :=
        storeInProfiles_spec u dt (EncryptionService.encryptData v k) w
      cases hsp : SupabaseStorage.storeInProfilesTable u dt
          (EncryptionService.encryptData v k) w with
      | mk r w₁ =>
        simp only [hsp] at hd hb hr hp
        cases r with
        | error e =>
          simp only [hsp]
          refine ⟨hd, hb, ?_⟩
          intro c hc
          simp only [supaPayloads] at hc
          rcases List.mem_append.mp hc with h₃ | h₄
          · rw [hr] at h₃
            exact Or.inl (List.mem_append.mpr (Or.inl h₃))
          · rcases hp c h₄ with h₅ | h₅
            · exact Or.inl (List.mem_append.mpr (Or.inr h₅))
            · exact Or.inr h₅
        | ok id =>
          simp only [hsp]
          refine ⟨hd, hb, ?_⟩
          intro c hc
          simp only [supaPayloads] at hc
          rcases List.mem_append.mp hc with h₃ | h₄
          · rw [hr] at h₃
            exact Or.inl (List.mem_append.mpr (Or.inl h₃))
          · rcases hp c h₄ with h₅ | h₅
            · exact Or.inl (List.mem_append.mpr (Or.inr h₅))
            · exact Or.inr h₅
    · split
      · -- insert failed: profiles fallback again
        obtain ⟨hd, hb, hr, hp⟩ :=
          storeInProfiles_spec u dt (EncryptionService.encryptData v k) w
        cases hsp : SupabaseStorage.storeInProfilesTable u dt
            (EncryptionService.encryptData v k) w with
        | mk r w₁ =>
          simp only [hsp] at hd hb hr hp
          cases r with
          | error e =>
            simp only [hsp]
            refine ⟨hd, hb, ?_⟩
            intro c hc
            simp only [supaPayloads] at hc
            rcases List.mem_append.mp hc with h₃ | h₄
            · rw [hr] at h₃
              exact Or.inl (List.mem_append.mpr (Or.inl h₃))
            · rcases hp c h₄ with h₅ | h₅
              · exact Or.inl (List.mem_append.mpr (Or.inr h₅))
              · exact Or.inr h₅
          | ok id =>
            simp only [hsp]
            refine ⟨hd, hb, ?_⟩
            intro c hc
            simp only [supaPayloads] at hc
            rcases List.mem_append.mp hc with h₃ | h₄
            · rw [hr] at h₃
              exact Or.inl (List.mem_append.mpr (Or.inl h₃))
            · rcases hp c h₄ with h₅ | h₅
              · exact Or.inl (List.mem_append.mpr (Or.inr h₅))
              · exact Or.inr h₅
      · -- successful insert
        refine ⟨rfl, rfl, ?_⟩
        intro c hc
        simp only [supaPayloads, List.map_append] at hc
        rcases List.mem_append.mp hc with h₁ | h₂
        · rcases List.mem_append.mp h₁ with h₃ | h₄
          · exact Or.inl (List.mem_append.mpr (Or.inl h₃))
          · simp at h₄
            exact Or.inr h₄
        · exact Or.inl (List.mem_append.mpr (Or.inr h₂))

/-- A Local store (including the quota-eviction retry and the failing
index-write paths) only leaves behind previously persisted payloads or
the encryption of the written value; the other backends are untouched. -/
theorem localStore_world (u : String) (v : Value) (dt : String) (k : Key)
    (w : World) :
    (LocalStorage.storeEncryptedData u v dt k w).2.drive = w.drive ∧
    (LocalStorage.storeEncryptedData u v dt k w).2.supa = w.supa ∧
    ∀ c ∈ localPayloads (LocalStorage.storeEncryptedData u v dt k w).2.browser.map,
      c ∈ localPayloads w.browser.map ∨ c = EncryptionService.encryptData v k := by
  refine ⟨?_, ?_, ?_⟩
  · simp only [LocalStorage.storeEncryptedData]
    split
    · split
      · rfl
      · rfl
    · split
      · split
        · rfl
        · rfl
      · rfl
  · simp only [LocalStorage.storeEncryptedData]
    split
    · split
      · rfl
      · rfl
    · split
      · split
        · rfl
        · rfl
      · rfl
  · intro c hc
    simp only [LocalStorage.storeEncryptedData] at hc
    split at hc
    · next b hset1 =>
      split at hc
      · next b₁ hset2 =>
        unfold LocalStorage.updateIndex at hset2
        rcases setItem_mem_payloads hset2 hc with h₁ | ⟨it, hit, -⟩
        · rcases setItem_mem_payloads hset1 h₁ with h₂ | ⟨it, hit, hcc⟩
          · exact Or.inl h₂
          · simp at hit
            rw [← hit] at hcc
            exact Or.inr hcc.symm
        · simp at hit
      · next e hset2 =>
        rcases setItem_mem_payloads hset1 hc with h₂ | ⟨it, hit, hcc⟩
        · exact Or.inl h₂
        · simp at hit
          rw [← hit] at hcc
          exact Or.inr hcc.symm
    · next e hset1 =>
      split at hc
      · next b₂ hset2 =>
        split at hc
        · next b₃ hset3 =>
          unfold LocalStorage.updateIndex at hset3
          rcases setItem_mem_payloads hset3 hc with h₁ | ⟨it, hit, -⟩
          · rcases setItem_mem_payloads hset2 h₁ with h₂ | ⟨it, hit, hcc⟩
            · exact Or.inl (clearOldData_mem_payloads h₂)
            · simp at hit
              rw [← hit] at hcc
              exact Or.inr hcc.symm
          · simp at hit
        · next e₁ hset3 =>
          rcases setItem_mem_payloads hset2 hc with h₂ | ⟨it, hit, hcc⟩
          · exact Or.inl (clearOldData_mem_payloads h₂)
          · simp at hit
            rw [← hit] at hcc
            exact Or.inr hcc.symm
      · next e₁ hset2 =>
        exact Or.inl (clearOldData_mem_payloads hc)

/-- C6: ciphertext opacity — every payload any backend persists through
a store or update is the Cipher Service's encryption of the written
plaintext (or was already persisted), and every value a backend
retrieval returns has passed through the Cipher Service's decryption of
a persisted ciphertext; no operation writes or returns plaintext
payloads. -/
theorem ciphertext_opacity (cfg : StorageConfig) (data : Value)
    (dataType : String) (w : World) : OpacitySpec cfg data dataType w := by
  refine ⟨?_, ?_, ?_, ?_⟩
  · intro s c hc
    cases s with
    | googleDrive =>
      simp only [StorageManager.storeAttempt] at hc
      obtain ⟨hb, hs, hp⟩ := driveStore_world data dataType cfg.encryptionKey w
      rw [mem_persistedPayloads] at hc
      rcases hc with h₁ | h₂ | h₃
      · rcases hp c h₁ with h | h
        · exact Or.inl (mem_persistedPayloads.mpr (Or.inl h))
        · exact Or.inr h
      · rw [hs] at h₂
        exact Or.inl (mem_persistedPayloads.mpr (Or.inr (Or.inl h₂)))
      · rw [hb] at h₃
        exact Or.inl (mem_persistedPayloads.mpr (Or.inr (Or.inr h₃)))
    | supabase =>
      simp only [StorageManager.storeAttempt] at hc
      obtain ⟨hd, hb, hp⟩ :=
        supaStore_world cfg.userId data dataType cfg.encryptionKey w
      rw [mem_persistedPayloads] at hc
      rcases hc with h₁ | h₂ | h₃
      · rw [hd] at h₁
        exact Or.inl (mem_persistedPayloads.mpr (Or.inl h₁))
      · rcases hp c h₂ with h | h
        · exact Or.inl (mem_persistedPayloads.mpr (Or.inr (Or.inl h)))
        · exact Or.inr h
      · rw [hb] at h₃
        exact Or.inl (mem_persistedPayloads.mpr (Or.inr (Or.inr h₃)))
    | «local» =>
      simp only [StorageManager.storeAttempt] at hc
      obtain ⟨hd, hs, hp⟩ :=
        localStore_world cfg.userId data dataType cfg.encryptionKey w
      rw [mem_persistedPayloads] at hc
      rcases hc with h₁ | h₂ | h₃
      · rw [hd] at h₁
        exact Or.inl (mem_persistedPayloads.mpr (Or.inl h₁))
      · rw [hs] at h₂
        exact Or.inl (mem_persistedPayloads.mpr (Or.inr (Or.inl h₂)))
      · rcases hp c h₃ with h | h
        · exact Or.inl (mem_persistedPayloads.mpr (Or.inr (Or.inr h)))
        · exact Or.inr h
  · intro s vs h x hx
    cases s with
    | supabase =>
      simp only [StorageManager.retrieveAttempt] at h
      obtain ⟨r, hr, hd⟩ := supaRetrieve_ok_mem h x hx
      exact ⟨r.encrypted_content,
        mem_persistedPayloads.mpr (Or.inr (Or.inl
          (List.mem_append.mpr (Or.inl (List.mem_map_of_mem _ hr))))), hd⟩
    | googleDrive =>
      simp only [StorageManager.retrieveAttempt] at h
      split at h
      · simp at h
      · split at h
        · simp at h
          subst h
          simp at hx
        · obtain ⟨f, hf, hd⟩ := driveFetchAll_ok_mem h x hx
          exact ⟨f.content,
            mem_persistedPayloads.mpr (Or.inl (List.mem_map_of_mem _ hf)), hd⟩
    | «local» =>
      simp only [StorageManager.retrieveAttempt,
        LocalStorage.retrieveEncryptedData] at h
      obtain ⟨it, ⟨p, hp, hv⟩, hd⟩ := retrieveGo_ok_mem h x hx
      exact ⟨it.encryptedContent,
        mem_persistedPayloads.mpr (Or.inr (Or.inr
          (mem_localPayloads.mpr ⟨p, hp, it, hv, rfl⟩))), hd⟩
  · intro id c hc
    simp only [SupabaseStorage.updateEncryptedData] at hc
    split at hc
    · exact Or.inl hc
    · rw [mem_persistedPayloads] at hc
      rcases hc with h₁ | h₂ | h₃
      · exact Or.inl (mem_persistedPayloads.mpr (Or.inl h₁))
      · simp only [supaPayloads] at h₂
        rcases List.mem_append.mp h₂ with h₄ | h₅
        · obtain ⟨r₁, hr₁, hc₁⟩ := List.mem_map.mp h₄
          obtain ⟨r, hr, hfr⟩ := List.mem_map.mp hr₁
          by_cases hid : r.id = id
          · rw [if_pos hid] at hfr
            rw [← hfr] at hc₁
            exact Or.inr hc₁.symm
          · rw [if_neg hid] at hfr
            subst hfr
            exact Or.inl (mem_persistedPayloads.mpr (Or.inr (Or.inl
              (List.mem_append.mpr (Or.inl (hc₁ ▸ List.mem_map_of_mem _ hr))))))
        · exact Or.inl (mem_persistedPayloads.mpr (Or.inr (Or.inl
            (List.mem_append.mpr (Or.inr h₅)))))
      · exact Or.inl (mem_persistedPayloads.mpr (Or.inr (Or.inr h₃)))
  · intro u id dt₁ c hc
    simp only [LocalStorage.updateEncryptedData] at hc
    split at hc
    · exact Or.inl hc
    · exact Or.inl hc
    · next it hget =>
      split at hc
      · next b₁ hset =>
        rw [mem_persistedPayloads] at hc
        rcases hc with h₁ | h₂ | h₃
        · exact Or.inl (mem_persistedPayloads.mpr (Or.inl h₁))
        · exact Or.inl (mem_persistedPayloads.mpr (Or.inr (Or.inl h₂)))
        · rcases setItem_mem_payloads hset h₃ with h | ⟨it₁, hit, hcc⟩
          · exact Or.inl (mem_persistedPayloads.mpr (Or.inr (Or.inr h)))
          · simp at hit
            rw [← hit] at hcc
            exact Or.inr hcc.symm
      · next e hset =>
        exact Or.inl hc

/-! ## C7: update semantics per backend -/

/-- C7 amended: the Local Backend's update re-encrypts and overwrites an
existing record's payload and update timestamp and fails with the
`Item not found` error when the record is absent; the Relational
Backend's update issues the query and returns success whether or not any
row has the identifier — when none does, it changes nothing and still
succeeds (no `NotFoundError`).  The Cloud File Backend has no update
operation. -/
theorem update_semantics (userId : String) (id : Nat) (dataType : String)
    (data : Value) (k : Key) (w : World) :
    (LocalStorage.lsGet w.browser.map (.record userId dataType id) = none →
      LocalStorage.updateEncryptedData userId id dataType data k w =
        (.error "Failed to update data in localStorage: Error: Item not found", w)) ∧
    (∀ it : LocalItem,
      LocalStorage.lsGet w.browser.map (.record userId dataType id) =
          some (.item it) →
      ∃ b₁, LocalStorage.updateEncryptedData userId id dataType data k w =
          (.ok (), { w with browser := b₁ }) ∧
        LocalStorage.lsGet b₁.map (.record userId dataType id) =
          some (.item { it with
            encryptedContent := EncryptionService.encryptData data k,
            updatedAt := w.clock }) ∧
        (∀ k₁, k₁ ≠ LSKey.record userId dataType id →
          LocalStorage.lsGet b₁.map k₁ = LocalStorage.lsGet w.browser.map k₁)) ∧
    (w.supa.netFail = false →
      (SupabaseStorage.updateEncryptedData id data k w).1 = .ok () ∧
      ((∀ r ∈ w.supa.rows, r.id ≠ id) →
        SupabaseStorage.updateEncryptedData id data k w = (.ok (), w))) := by
  refine ⟨?_, ?_, ?_⟩
  · intro hget
    simp [LocalStorage.updateEncryptedData, hget]
  · intro it hget
    obtain ⟨b₁, hset⟩ : ∃ b₁, LocalStorage.setItem w.browser
        (.record userId dataType id)
        (.item { it with encryptedContent := EncryptionService.encryptData data k,
                         updatedAt := w.clock }) = .ok b₁ := by
      unfold LocalStorage.setItem
      rw [hget]
      exact ⟨_, rfl⟩
    refine ⟨b₁, ?_, ?_, ?_⟩
    · simp only [LocalStorage.updateEncryptedData, hget, hset]
    · rw [setItem_ok_get hset, if_pos rfl]
    · intro k₁ hk₁
      rw [setItem_ok_get hset, if_neg hk₁]
  · intro hnf
    refine ⟨by simp [SupabaseStorage.updateEncryptedData, hnf], ?_⟩
    intro hno
    have hmap : w.supa.rows.map (fun r =>
        if r.id = id then
          { r with encrypted_content := EncryptionService.encryptData data k,
                   updated_at := w.clock }
        else r) = w.supa.rows := by
      have hcongr : ∀ r ∈ w.supa.rows, (fun r =>
          if r.id = id then
            { r with encrypted_content := EncryptionService.encryptData data k,
                     updated_at := w.clock }
          else r) r = (fun r => r) r := by
        intro r hr
        simp [hno r hr]
      rw [List.map_congr_left hcongr, List.map_id']
    simp [SupabaseStorage.updateEncryptedData, hnf, hmap]
    rw [← hnf]

/-! ## C9 (amended theorem): the sound direction of index consistency -/

theorem getIndex_setItem_self {b b₁ : Browser} {u : String} {l : List IndexEntry}
    (h : LocalStorage.setItem b (.index u) (.idx l) = .ok b₁) :
    LocalStorage.getIndex b₁ u = l := by
  unfold LocalStorage.getIndex
  rw [setItem_ok_get h, if_pos rfl]

theorem binv_mono {b : Browser} {clock clock₁ : Nat} {u : String}
    (h : BInv b clock u) (hc : clock ≤ clock₁) : BInv b clock₁ u :=
  ⟨h.sound, h.nodup, fun e he => lt_of_lt_of_le (h.fresh e he) hc,
    fun p hp uid dt id hk => lt_of_lt_of_le (h.freshRec p hp uid dt id hk) hc,
    h.keysNodup⟩

/-- `clearOldData` preserves the consistency invariant: it evicts whole
(record, index entry) pairs, and its swallowed failure can only occur
with an empty index, where it changes nothing. -/
theorem clearOldData_facts (b : Browser) (u : String) (clock : Nat)
    (hB : BInv b clock u) : BInv (LocalStorage.clearOldData b u) clock u := by
  simp only [LocalStorage.clearOldData]
  have sortedPerm := List.mergeSort_perm (LocalStorage.getIndex b u)
    (fun a b => a.createdAt ≤ b.createdAt)
  have hsortnodup : (((LocalStorage.getIndex b u).mergeSort
      (fun a b => a.createdAt ≤ b.createdAt)).map (fun e => e.id)).Nodup :=
    ((sortedPerm.map (fun e => e.id)).nodup_iff).mpr hB.nodup
  split
  · next b₂ hset =>
    have hgetIdx := getIndex_setItem_self hset
    have hdisj : ∀ e ∈ ((LocalStorage.getIndex b u).mergeSort
          (fun a b => a.createdAt ≤ b.createdAt)).drop
          (((LocalStorage.getIndex b u).length + 9) / 10),
        ∀ e₁ ∈ ((LocalStorage.getIndex b u).mergeSort
          (fun a b => a.createdAt ≤ b.createdAt)).take
          (((LocalStorage.getIndex b u).length + 9) / 10),
        e₁.id ≠ e.id := by
      intro e he e₁ he₁
      rw [← List.take_append_drop (((LocalStorage.getIndex b u).length + 9) / 10)
        ((LocalStorage.getIndex b u).mergeSort
          (fun a b => a.createdAt ≤ b.createdAt)), List.map_append] at hsortnodup
      have hd := (List.nodup_append.mp hsortnodup).2.2
      intro heq
      exact hd (List.mem_map_of_mem _ he₁) (heq ▸ List.mem_map_of_mem _ he)
    refine ⟨?_, ?_, ?_, ?_, ?_⟩
    · intro e he
      rw [hgetIdx] at he
      have hemem : e ∈ LocalStorage.getIndex b u :=
        sortedPerm.subset (List.mem_of_mem_drop he)
      obtain ⟨it, hgit, h1, h2, h3⟩ := hB.sound e hemem
      refine ⟨it, ?_, h1, h2, h3⟩
      rw [setItem_ok_get hset, if_neg (by simp),
        fold_removeItem_lsGet _ _ _ ?_, hgit]
      intro e₁ he₁ hk
      simp only [LSKey.record.injEq] at hk
      exact hdisj e he e₁ he₁ hk.2.2
    · rw [hgetIdx]
      exact List.Nodup.sublist ((List.drop_sublist _ _).map _) hsortnodup
    · intro e he
      rw [hgetIdx] at he
      exact hB.fresh e (sortedPerm.subset (List.mem_of_mem_drop he))
    · intro p hp uid dt id hk
      rcases setItem_ok_mem hset p hp with hm | rfl
      · exact hB.freshRec p ((fold_removeItem_sublist _ _).subset hm) uid dt id hk
      · simp at hk
    · exact setItem_ok_keysNodup hset
        (List.Nodup.sublist ((fold_removeItem_sublist _ _).map _) hB.keysNodup)
  · next e hset =>
    have h₁ := setItem_error_get hset
    rw [fold_removeItem_lsGet _ _ _ (fun e₁ _ => by simp)] at h₁
    have hix : LocalStorage.getIndex b u = [] := by
      unfold LocalStorage.getIndex
      rw [h₁]
    rw [hix]
    simp only [List.mergeSort_nil, List.take_nil, List.foldl_nil]
    exact hB

/-- The record-write half of a Local store, followed (or not) by the
index write: writing a fresh record keeps the invariant, and a
successful index push re-establishes it with the new entry. -/
theorem binv_afterStore {B : Browser} {clock : Nat} {u dt : String}
    {item : LocalItem} {b : Browser}
    (hB : BInv B clock u)
    (hset1 : LocalStorage.setItem B (.record u dt clock) (.item item) = .ok b)
    (hid : item.id = clock) (huid : item.userId = u) (hdt : item.dataType = dt) :
    BInv b (clock + 1) u ∧
    ∀ {b₁ : Browser}, LocalStorage.updateIndex b u clock dt clock = .ok b₁ →
      BInv b₁ (clock + 1) u := by
  have hget_b := setItem_ok_get hset1
  have hidx_b : LocalStorage.getIndex b u = LocalStorage.getIndex B u := by
    unfold LocalStorage.getIndex
    rw [hget_b (LSKey.index u), if_neg (by simp)]
  have hb : BInv b (clock + 1) u := by
    refine ⟨?_, ?_, ?_, ?_, ?_⟩
    · intro e he
      rw [hidx_b] at he
      obtain ⟨it, hgit, h1, h2, h3⟩ := hB.sound e he
      refine ⟨it, ?_, h1, h2, h3⟩
      rw [hget_b, if_neg, hgit]
      intro hk
      simp only [LSKey.record.injEq] at hk
      obtain ⟨-, -, hk3⟩ := hk
      have := hB.fresh e he
      omega
    · rw [hidx_b]
      exact hB.nodup
    · intro e he
      rw [hidx_b] at he
      exact Nat.lt_succ_of_lt (hB.fresh e he)
    · intro p hp uid d i hpk
      rcases setItem_ok_mem hset1 p hp with hm | rfl
      · exact Nat.lt_succ_of_lt (hB.freshRec p hm uid d i hpk)
      · simp only [LSKey.record.injEq] at hpk
        obtain ⟨-, -, h3⟩ := hpk
        omega
    · exact setItem_ok_keysNodup hset1 hB.keysNodup
  refine ⟨hb, ?_⟩
  intro b₁ hset2
  unfold LocalStorage.updateIndex at hset2
  have hidx_b₁ : LocalStorage.getIndex b₁ u =
      LocalStorage.getIndex B u ++ [⟨clock, dt, clock⟩] := by
    rw [getIndex_setItem_self hset2, hidx_b]
  refine ⟨?_, ?_, ?_, ?_, ?_⟩
  · intro e he
    rw [hidx_b₁] at he
    rcases List.mem_append.mp he with hold | hnew
    · obtain ⟨it, hgit, h1, h2, h3⟩ := hB.sound e hold
      refine ⟨it, ?_, h1, h2, h3⟩
      rw [setItem_ok_get hset2, if_neg (by simp), hget_b, if_neg, hgit]
      intro hk
      simp only [LSKey.record.injEq] at hk
      obtain ⟨-, -, hk3⟩ := hk
      have := hB.fresh e hold
      omega
    · simp at hnew
      subst hnew
      refine ⟨item, ?_, hid, hdt, huid⟩
      rw [setItem_ok_get hset2, if_neg (by simp), hget_b, if_pos rfl]
  · rw [hidx_b₁, List.map_append, List.nodup_append]
    refine ⟨hB.nodup, by simp, ?_⟩
    intro a ha hb₂
    simp at hb₂
    subst hb₂
    obtain ⟨e₁, he₁, hei⟩ := List.mem_map.mp ha
    have := hB.fresh e₁ he₁
    omega
  · intro e he
    rw [hidx_b₁] at he
    rcases List.mem_append.mp he with hold | hnew
    · exact Nat.lt_succ_of_lt (hB.fresh e hold)
    · simp at hnew
      subst hnew
      exact Nat.lt_succ_self clock
  · intro p hp uid d i hpk
    rcases setItem_ok_mem hset2 p hp with hm | rfl
    · exact hb.freshRec p hm uid d i hpk
    · simp at hpk
  · exact setItem_ok_keysNodup hset2 hb.keysNodup

/-- A Local store preserves the consistency invariant, on every branch:
plain write, quota-eviction retry, and the error paths. -/
theorem localStore_LocalInv (u : String) (v : Value) (dt : String) (k : Key)
    (w : World) (h : LocalInv w u) :
    LocalInv (LocalStorage.storeEncryptedData u v dt k w).2 u := by
  unfold LocalInv at h ⊢
  simp only [LocalStorage.storeEncryptedData]
  split
  · next b hset1 =>
    obtain ⟨hb, hupd⟩ := binv_afterStore h hset1 rfl rfl rfl
    split
    · next b₁ hset2 => exact hupd hset2
    · next e hset2 => exact hb
  · next e hset1 =>
    have hB₁ := clearOldData_facts w.browser u w.clock h
    split
    · next b₂ hset2 =>
      obtain ⟨hb, hupd⟩ := binv_afterStore hB₁ hset2 rfl rfl rfl
      split
      · next b₃ hset3 => exact hupd hset3
      · next e₁ hset3 => exact hb
    · next e₁ hset2 =>
      exact binv_mono hB₁ (Nat.le_succ _)

/-- A Local delete preserves the consistency invariant: the record and
its index entry are removed together, and the swallowed index-write
failure can only occur with an empty index. -/
theorem localDelete_LocalInv (u : String) (id : Nat) (dt : String) (w : World)
    (h : LocalInv w u) :
    LocalInv (LocalStorage.deleteEncryptedData u id dt w).2 u := by
  unfold LocalInv at h ⊢
  simp only [LocalStorage.deleteEncryptedData]
  have hb₁get : ∀ k', ¬ k' = LSKey.record u dt id →
      LocalStorage.lsGet (LocalStorage.removeItem w.browser (.record u dt id)).map k' =
        LocalStorage.lsGet w.browser.map k' :=
    fun k' hk => lsGet_lsRemoveKey_ne hk
  have hb₁idx : LocalStorage.getIndex
      (LocalStorage.removeItem w.browser (.record u dt id)) u =
      LocalStorage.getIndex w.browser u := by
    unfold LocalStorage.getIndex
    rw [hb₁get _ (by simp)]
  split
  · next b₂ hset =>
    unfold LocalStorage.removeFromIndex at hset
    have hidx₂ := getIndex_setItem_self hset
    rw [hb₁idx] at hidx₂
    refine ⟨?_, ?_, ?_, ?_, ?_⟩
    · intro e he
      rw [hidx₂] at he
      have hmem := List.mem_of_mem_filter he
      have hne : e.id ≠ id := by
        have := List.of_mem_filter he
        simpa using this
      obtain ⟨it, hgit, h1, h2, h3⟩ := h.sound e hmem
      refine ⟨it, ?_, h1, h2, h3⟩
      rw [setItem_ok_get hset, if_neg (by simp), hb₁get, hgit]
      intro hk
      simp only [LSKey.record.injEq] at hk
      exact hne hk.2.2
    · rw [hidx₂]
      exact List.Nodup.sublist ((List.filter_sublist _).map _) h.nodup
    · intro e he
      rw [hidx₂] at he
      exact h.fresh e (List.mem_of_mem_filter he)
    · intro p hp uid d i hpk
      rcases setItem_ok_mem hset p hp with hm | rfl
      · exact h.freshRec p ((lsRemoveKey_sublist _ _).subset hm) uid d i hpk
      · simp at hpk
    · exact setItem_ok_keysNodup hset
        (List.Nodup.sublist ((lsRemoveKey_sublist _ _).map _) h.keysNodup)
  · next e hset =>
    unfold LocalStorage.removeFromIndex at hset
    have h₁ := setItem_error_get hset
    rw [hb₁get _ (by simp)] at h₁
    have hix : LocalStorage.getIndex w.browser u = [] := by
      unfold LocalStorage.getIndex
      rw [h₁]
    refine ⟨?_, ?_, ?_, ?_, ?_⟩
    · intro e₁ he₁
      rw [hb₁idx, hix] at he₁
      simp at he₁
    · rw [hb₁idx, hix]
      simp
    · intro e₁ he₁
      rw [hb₁idx, hix] at he₁
      simp at he₁
    · intro p hp uid d i hpk
      exact h.freshRec p ((lsRemoveKey_sublist _ _).subset hp) uid d i hpk
    · exact List.Nodup.sublist ((lsRemoveKey_sublist _ _).map _) h.keysNodup

/-- C9 amended: starting from a consistent state, after any finite
sequence of Local Backend store and delete operations for one user
(including the quota-eviction retry path) the user's index still
references only physically present records with matching identifier,
data type and owner, and its identifiers are pairwise distinct — but a
record without an index entry can remain behind a failed store (see the
counterexample), so the converse direction does not hold. -/
theorem local_index_sound (u : String) (ops : List LocalOp) (w : World)
    (h : LocalInv w u) :
    LocalInv (runLocalOps u w ops) u ∧
    ∀ e ∈ LocalStorage.getIndex (runLocalOps u w ops).browser u,
      ∃ it : LocalItem,
        LocalStorage.lsGet (runLocalOps u w ops).browser.map
          (.record u e.dataType e.id) = some (.item it) ∧
        it.id = e.id ∧ it.dataType = e.dataType ∧ it.userId = u := by
  have hrun : LocalInv (runLocalOps u w ops) u := by
    induction ops generalizing w with
    | nil => exact h
    | cons op rest ih =>
      simp only [runLocalOps]
      apply ih
      cases op with
      | storeOp v dt k => exact localStore_LocalInv u v dt k w h
      | deleteOp id dt => exact localDelete_LocalInv u id dt w h
  exact ⟨hrun, hrun.sound⟩

/-- C9 witness: from the empty consistent world, one store followed by
one delete keeps the index sound. -/
theorem local_index_sound_witness :
    LocalInv sampleWorld "u" ∧
    (LocalInv (runLocalOps "u" sampleWorld
        [.storeOp sampleValue "medicines" "k1", .deleteOp 0 "medicines"]) "u" ∧
      ∀ e ∈ LocalStorage.getIndex (runLocalOps "u" sampleWorld
          [.storeOp sampleValue "medicines" "k1", .deleteOp 0 "medicines"]).browser "u",
        ∃ it : LocalItem,
          LocalStorage.lsGet (runLocalOps "u" sampleWorld
            [.storeOp sampleValue "medicines" "k1", .deleteOp 0 "medicines"]).browser.map
            (.record "u" e.dataType e.id) = some (.item it) ∧
          it.id = e.id ∧ it.dataType = e.dataType ∧ it.userId = "u") := by
  have hinv : LocalInv sampleWorld "u" := by
    refine ⟨?_, ?_, ?_, ?_, ?_⟩ <;>
      simp [LocalStorage.getIndex, LocalStorage.lsGet, sampleWorld]
  exact ⟨hinv, local_index_sound "u"
    [.storeOp sampleValue "medicines" "k1", .deleteOp 0 "medicines"]
    sampleWorld hinv⟩

/-- C4 witness: the concrete one-record Local primary and empty Supabase
backend — after two syncs Supabase holds `2 · 1` records. -/
theorem syncData_twice_duplicates_witness :
    (StorageConfig.mk "u" "k1" [.local, .supabase]).enabledStorages =
      [StorageOption.local, .supabase] ∧
    (StorageOption.local = StorageOption.local ∨
      StorageOption.local = StorageOption.supabase) ∧
    StorageOption.supabase ≠ StorageOption.local ∧
    StorageManager.primaryRead ⟨"u", "k1", [.local, .supabase]⟩ "medicines"
      syncSourceWorld .local = .ok [sampleValue] ∧
    StoreReady .supabase syncSourceWorld ∧
    (StorageOption.supabase = StorageOption.local →
      syncSourceWorld.browser.map.length + 4 * [sampleValue].length ≤
        syncSourceWorld.browser.quota) ∧
    backendCount ⟨"u", "k1", [.local, .supabase]⟩ "medicines" .supabase
      syncSourceWorld = 0 ∧
    (∃ w₂, (StorageManager.syncData ⟨"u", "k1", [.local, .supabase]⟩ "medicines"
        syncSourceWorld).1 = .ok () ∧
      StorageManager.syncData ⟨"u", "k1", [.local, .supabase]⟩ "medicines"
        (StorageManager.syncData ⟨"u", "k1", [.local, .supabase]⟩ "medicines"
          syncSourceWorld).2 = (.ok (), w₂) ∧
      backendCount ⟨"u", "k1", [.local, .supabase]⟩ "medicines" .supabase w₂ =
        2 * [sampleValue].length) := by
  refine ⟨rfl, Or.inl rfl, by decide, rfl, ⟨rfl, rfl, rfl⟩, ?_, rfl, ?_⟩
  · intro h
    exact absurd h (by decide)
  · exact syncData_twice_duplicates ⟨"u", "k1", [.local, .supabase]⟩ "medicines"
      syncSourceWorld .local .supabase [sampleValue] rfl (Or.inl rfl)
      (by decide) rfl ⟨rfl, rfl, rfl⟩ (fun h => absurd h (by decide)) rfl

end Medicinai
